import Mathlib

/-!
# Succinct dynamic sequence graph (`src/dgraph.cpp`)

A shallow embedding of `dankgraph::SuccinctDynamicSequenceGraph`: the packed
node-record vector, the packed sequence vector, the edge-list vector and the
identifier index are lists of naturals; every operation that reads or writes a
vector position that does not exist yields `none`.

The header `dgraph.hpp` is not part of the sources.  What the code takes from
it (record layout constants, `graph_iv_index`, the nucleotide codec, the edge
target codec, `forward`, `reverse_complement`, the initial identifier bounds)
is modelled below, each definition saying so in its documentation.
-/

namespace dankgraph

/-! ## Machine words -/

/-- Node identifiers (`id_t`) are signed 64-bit integers. -/
abbrev id_t := Int

/-- A `handle_t` is an opaque 64-bit value; it is represented by its bit
pattern read as an unsigned number (below `2 ^ 64`). -/
abbrev handle_t := Nat

/-- Bit pattern of a signed 64-bit integer (two's complement). -/
def to_u64 (x : Int) : Nat := (x % (2 : Int) ^ 64).toNat

/-- The signed value of a 64-bit pattern (`reinterpret_cast<int64_t>`). -/
def to_i64 (n : Nat) : Int := if n < 2 ^ 63 then (n : Int) else (n : Int) - (2 : Int) ^ 64

/-- Subtraction of two `size_t` values, wrapping modulo `2 ^ 64`. -/
def sub64 (a b : Nat) : Nat := (a + 2 ^ 64 - b) % 2 ^ 64

/-! ## Record layout

The constants live in the missing header.  Their values are fixed by the order
in which `create_handle` and `divide_handle` append the fields of a record
(identifier, start edges, end edges, sequence start, sequence length) and by
the two appends that make an edge record (target, next). -/

/-- Modelled from the spec: number of fields of a Node Record. -/
abbrev GRAPH_RECORD_SIZE : Nat := 5
/-- Modelled from the spec: position of the identifier in a Node Record. -/
abbrev GRAPH_ID_OFFSET : Nat := 0
/-- Modelled from the spec: position of the start-edge list head. -/
abbrev GRAPH_START_EDGES_OFFSET : Nat := 1
/-- Modelled from the spec: position of the end-edge list head. -/
abbrev GRAPH_END_EDGES_OFFSET : Nat := 2
/-- Modelled from the spec: position of the sequence start. -/
abbrev GRAPH_SEQ_START_OFFSET : Nat := 3
/-- Modelled from the spec: position of the sequence length. -/
abbrev GRAPH_SEQ_LENGTH_OFFSET : Nat := 4
/-- Modelled from the spec: number of fields of an Edge Record. -/
abbrev EDGE_RECORD_SIZE : Nat := 2
/-- Modelled from the spec: position of the target in an Edge Record. -/
abbrev EDGE_TRAV_OFFSET : Nat := 0
/-- Modelled from the spec: position of the next pointer in an Edge Record. -/
abbrev EDGE_NEXT_OFFSET : Nat := 1

/-! ## Packed vectors -/

/-- Indexed read (`get`, `operator[]`) of a packed vector; reading past the
end has no value. -/
def vec_get (v : List Nat) (i : Nat) : Option Nat := v[i]?

/-- Indexed write (`set`, assignment through `operator[]`); writing past the
end has no value. -/
def vec_set (v : List Nat) (i : Nat) (x : Nat) : Option (List Nat) :=
  if i < v.length then some (v.set i x) else none

/-! ## Nucleotide codec -/

/-- Modelled from the spec: `encode_nucleotide` is in the missing header; the
codes of A, C, G, T and a sentinel for every other symbol. -/
def encode_nucleotide (c : Char) : Nat :=
  if c = 'A' then 0 else if c = 'C' then 1 else if c = 'G' then 2 else if c = 'T' then 3 else 4

/-- Modelled from the spec: `decode_nucleotide` is in the missing header; the
inverse of `encode_nucleotide` on the alphabet, the sentinel decodes to N. -/
def decode_nucleotide (n : Nat) : Char :=
  match n with
  | 0 => 'A'
  | 1 => 'C'
  | 2 => 'G'
  | 3 => 'T'
  | _ => 'N'

/-- Modelled from the spec: `complement_encoded_nucleotide` is in the missing
header; the code of the complementary base. -/
def complement_encoded_nucleotide (n : Nat) : Nat :=
  match n with
  | 0 => 3
  | 1 => 2
  | 2 => 1
  | 3 => 0
  | _ => 4

/-- Modelled from the spec: `reverse_complement` is a utility outside the
sources; the complement of every base, in reverse order. -/
def reverse_complement (seq : List Char) : List Char :=
  (seq.map (fun c => decode_nucleotide (complement_encoded_nucleotide (encode_nucleotide c)))).reverse

/-- Modelled from the spec: `encode_edge_target` is in the missing header; an
Edge Record stores the handle of the other endpoint as its integer value. -/
def encode_edge_target (h : handle_t) : Nat := h

/-- Modelled from the spec: `decode_edge_target` is in the missing header; the
inverse of `encode_edge_target`. -/
def decode_edge_target (n : Nat) : Nat := n

/-- The characters that `decode_nucleotide` can produce. -/
def is_base (c : Char) : Prop := c = 'A' ∨ c = 'C' ∨ c = 'G' ∨ c = 'T' ∨ c = 'N'

/-! ## Handle encoding (`dgraph.cpp` lines 97-111) -/

/-- The source's `get_handle`: `is_reverse ? node_id << 1 & 1 : node_id << 1`.
In C++ the shift binds tighter than `&`, so the reverse branch is
`(node_id << 1) & 1`. -/
def get_handle (node_id : id_t) (is_reverse : Bool) : Nat :=
  if is_reverse then ((to_u64 node_id <<< 1) % 2 ^ 64) &&& 1 else (to_u64 node_id <<< 1) % 2 ^ 64

/-- The source's `get_id`: arithmetic shift right by one of the signed value. -/
def get_id (handle : handle_t) : Int := to_i64 handle >>> (1 : Nat)

/-- The source's `get_is_reverse`: the lowest bit. -/
def get_is_reverse (handle : handle_t) : Bool := (handle &&& 1) != 0

/-- The source's `flip`: exclusive or with one. -/
def flip (handle : handle_t) : Nat := handle ^^^ 1

/-- Modelled from the spec: `forward` is inherited from the handle graph
interface, which is outside the sources; the forward handle of the same node. -/
def forward (handle : handle_t) : Nat :=
  if get_is_reverse handle then flip handle else handle

/-! ## Graph state -/

/-- The data members of `SuccinctDynamicSequenceGraph`. -/
structure SuccinctDynamicSequenceGraph where
  /-- Node Records, five fields each. -/
  graph_iv : List Nat
  /-- Encoded sequence of every node, back to back. -/
  seq_iv : List Nat
  /-- Marks the first position of each sequence interval. -/
  boundary_bv : List Nat
  /-- Edge Records, two fields each. -/
  edge_lists_iv : List Nat
  /-- Identifier index: position `id - min_id` holds a 1-based record number. -/
  id_to_graph_iv : List Nat
  /-- Highest identifier seen. -/
  max_id : Int
  /-- Lowest identifier bound used by the index. -/
  min_id : Int
  deriving DecidableEq, Repr

/-- Modelled from the spec: `graph_iv_index` is in the missing header.  The
index maps `id - min_id` to a 1-based record number, 0 meaning unmapped; the
record starts at `(number - 1) * GRAPH_RECORD_SIZE`.  An identifier outside
the index, or unmapped, has no record. -/
def graph_iv_index (g : SuccinctDynamicSequenceGraph) (handle : handle_t) : Option Nat :=
  if get_id handle - g.min_id < 0 then none
  else
    match vec_get g.id_to_graph_iv (get_id handle - g.min_id).toNat with
    | none => none
    | some 0 => none
    | some (r + 1) => some (r * GRAPH_RECORD_SIZE)

/-- The source's `get_length`. -/
def get_length (g : SuccinctDynamicSequenceGraph) (handle : handle_t) : Option Nat :=
  (graph_iv_index g handle).bind fun i => vec_get g.graph_iv (i + GRAPH_SEQ_LENGTH_OFFSET)

/-- The decoding loop of `get_sequence`: positions `seq_start + 0` up to
`seq_start + n - 1` of the sequence vector, decoded in that order. -/
def decode_interval (seq_iv : List Nat) (seq_start : Nat) : Nat → Option (List Char)
  | 0 => some []
  | n + 1 =>
    (decode_interval seq_iv seq_start n).bind fun seq =>
      (vec_get seq_iv (seq_start + n)).bind fun c => some (seq ++ [decode_nucleotide c])

/-- The source's `get_sequence` (a `const` member: it has no access to write
the stores, so it is a function of the state alone). -/
def get_sequence (g : SuccinctDynamicSequenceGraph) (handle : handle_t) : Option (List Char) :=
  (graph_iv_index g handle).bind fun g_iv_index =>
    (vec_get g.graph_iv (g_iv_index + GRAPH_SEQ_START_OFFSET)).bind fun seq_start =>
      (vec_get g.graph_iv (g_iv_index + GRAPH_SEQ_LENGTH_OFFSET)).bind fun seq_len =>
        (decode_interval g.seq_iv seq_start seq_len).bind fun seq =>
          some (if get_is_reverse handle then reverse_complement seq else seq)

/-! ## Node creation (`dgraph.cpp` lines 20-56) -/

/-- The source's two-argument `create_handle`.  The body appends the record
and the sequence, extends the index and writes the mapping; it ends without a
`return` statement, so the second component, the handle handed back to the
caller, is `none`. -/
def create_handle_id (g : SuccinctDynamicSequenceGraph) (sequence : List Char) (id : id_t) :
    Option (SuccinctDynamicSequenceGraph × Option Nat) :=
  let graph_iv := g.graph_iv ++ [to_u64 id, 0, 0, g.seq_iv.length, sequence.length]
  let seq_iv := g.seq_iv ++ sequence.map encode_nucleotide
  let boundary_bv := g.boundary_bv ++ (List.range sequence.length).map fun i => if i = 0 then 1 else 0
  let index := List.replicate (g.min_id - id).toNat 0 ++ g.id_to_graph_iv
    ++ List.replicate (id - g.max_id).toNat 0
  let max_id := max id g.max_id
  let min_id := max id g.min_id
  if id - min_id < 0 then none
  else
    (vec_set index (id - min_id).toNat (graph_iv.length / GRAPH_RECORD_SIZE)).bind fun index =>
      some ({ graph_iv := graph_iv, seq_iv := seq_iv, boundary_bv := boundary_bv,
              edge_lists_iv := g.edge_lists_iv, id_to_graph_iv := index,
              max_id := max_id, min_id := min_id }, none)

/-- The source's one-argument `create_handle`: it calls the two-argument form
with `max_id + 1`, drops what that call gives back and has no `return`. -/
def create_handle (g : SuccinctDynamicSequenceGraph) (sequence : List Char) :
    Option (SuccinctDynamicSequenceGraph × Option Nat) :=
  (create_handle_id g sequence (g.max_id + 1)).bind fun r => some (r.1, none)

/-! ## Edge traversal (`dgraph.cpp` lines 145-168) -/

/-- The `while (edge_idx && keep_going)` loop of `follow_edges`.  The visitor
may carry state of its own (`acc`).  The loop need not end on a cyclic list,
so it is given `fuel` iterations; running out of them has no value. -/
def follow_edges_loop {α : Type} (edge_lists_iv : List Nat) (go_left : Bool)
    (iteratee : α → handle_t → Bool × α) : Nat → Nat → Bool → α → Option (Bool × α)
  | 0, edge_idx, keep_going, acc =>
    if edge_idx ≠ 0 ∧ keep_going = true then none else some (keep_going, acc)
  | fuel + 1, edge_idx, keep_going, acc =>
    if edge_idx ≠ 0 ∧ keep_going = true then
      (vec_get edge_lists_iv ((edge_idx - 1) * EDGE_RECORD_SIZE + EDGE_TRAV_OFFSET)).bind fun t =>
        let edge_target := if go_left then flip (decode_edge_target t) else decode_edge_target t
        (vec_get edge_lists_iv ((edge_idx - 1) * EDGE_RECORD_SIZE + EDGE_NEXT_OFFSET)).bind fun next =>
          follow_edges_loop edge_lists_iv go_left iteratee fuel next
            (iteratee acc edge_target).1 (iteratee acc edge_target).2
    else some (keep_going, acc)

/-- The source's `follow_edges`: the result flag and the visitor's final state. -/
def follow_edges {α : Type} (g : SuccinctDynamicSequenceGraph) (fuel : Nat) (handle : handle_t)
    (go_left : Bool) (iteratee : α → handle_t → Bool × α) (acc : α) : Option (Bool × α) :=
  let direction := get_is_reverse handle != go_left
  (graph_iv_index g handle).bind fun i =>
    (vec_get g.graph_iv
        (i + (if direction then GRAPH_START_EDGES_OFFSET else GRAPH_END_EDGES_OFFSET))).bind
      fun edge_idx => follow_edges_loop g.edge_lists_iv go_left iteratee fuel edge_idx true acc

/-- The handles on which `follow_edges` invokes a visitor that always asks to
continue, in order of invocation. -/
def visited (g : SuccinctDynamicSequenceGraph) (fuel : Nat) (handle : handle_t) (go_left : Bool) :
    Option (List Nat) :=
  (follow_edges g fuel handle go_left (fun (acc : List Nat) h => (true, acc ++ [h])) []).map
    fun r => r.2

/-! ## Edge creation (`dgraph.cpp` lines 58-95) -/

/-- The source's `create_edge`.  The duplicate check hands `follow_edges` the
visitor `next == right`; both list positions are computed from `left`. -/
def create_edge (g : SuccinctDynamicSequenceGraph) (fuel : Nat) (left right : handle_t) :
    Option SuccinctDynamicSequenceGraph :=
  (follow_edges g fuel left false (fun (_ : Unit) next => (next == right, ())) ()).bind fun r =>
    if r.1 = false then some g
    else
      (graph_iv_index g left).bind fun i =>
        let g_iv_left := i + (if get_is_reverse left then GRAPH_START_EDGES_OFFSET
                              else GRAPH_END_EDGES_OFFSET)
        let g_iv_right := i + (if get_is_reverse left then GRAPH_END_EDGES_OFFSET
                               else GRAPH_START_EDGES_OFFSET)
        (vec_get g.graph_iv g_iv_left).bind fun head_left =>
          let edges1 := g.edge_lists_iv ++ [encode_edge_target right, head_left]
          (vec_set g.graph_iv g_iv_left (edges1.length / EDGE_RECORD_SIZE)).bind fun graph1 =>
            if g_iv_left = g_iv_right then
              some { g with graph_iv := graph1, edge_lists_iv := edges1 }
            else
              (vec_get graph1 g_iv_right).bind fun head_right =>
                let edges2 := edges1 ++ [encode_edge_target (flip left), head_right]
                (vec_set graph1 g_iv_right (edges2.length / EDGE_RECORD_SIZE)).bind fun graph2 =>
                  some { g with graph_iv := graph2, edge_lists_iv := edges2 }

/-! ## Node division (`dgraph.cpp` lines 229-313) -/

/-- The trackers of the split loop of `divide_handle`. -/
structure DivideState where
  /-- The graph being rewritten. -/
  g : SuccinctDynamicSequenceGraph
  /-- The handles collected so far. -/
  return_val : List Nat
  /-- The tracker `g_iv_idx`. -/
  g_iv_idx : Nat
  /-- The tracker `last_offset`. -/
  last_offset : Nat
  /-- The tracker `prev_id`. -/
  prev_id : Int
  deriving DecidableEq, Repr

/-- One iteration of `for (const size_t& off : offsets)` in `divide_handle`. -/
def divide_step (first_start : Nat) (s : DivideState) (off : Nat) : Option DivideState :=
  let g := s.g
  let graph1 := g.graph_iv ++ [to_u64 (g.max_id + 1), 0, 0, first_start + off]
  (vec_set g.boundary_bv (first_start + off) 1).bind fun boundary_bv =>
    let graph2 := graph1 ++ [0]
    let index := g.id_to_graph_iv ++ [graph2.length / GRAPH_RECORD_SIZE]
    let return_val := s.return_val ++ [get_handle (g.max_id + 1) false]
    (vec_set graph2 (s.g_iv_idx + GRAPH_SEQ_LENGTH_OFFSET) (sub64 off s.last_offset)).bind
      fun graph3 =>
        let edges1 := g.edge_lists_iv ++ [encode_edge_target (get_handle (g.max_id + 1) false), 0]
        (vec_set graph3 (s.g_iv_idx + GRAPH_END_EDGES_OFFSET)
            (edges1.length / EDGE_RECORD_SIZE)).bind fun graph4 =>
          let g_iv_idx := graph4.length / GRAPH_RECORD_SIZE
          let edges2 := edges1 ++ [encode_edge_target (get_handle s.prev_id true), 0]
          (vec_set graph4 (g_iv_idx + GRAPH_START_EDGES_OFFSET)
              (edges2.length / EDGE_RECORD_SIZE)).bind fun graph5 =>
            some { g := { g with graph_iv := graph5, boundary_bv := boundary_bv,
                                 edge_lists_iv := edges2, id_to_graph_iv := index,
                                 max_id := g.max_id + 1 },
                   return_val := return_val,
                   g_iv_idx := g_iv_idx,
                   last_offset := off,
                   prev_id := g.max_id + 1 }

/-- The split loop of `divide_handle`, over the offsets in the given order. -/
def divide_loop (first_start : Nat) : DivideState → List Nat → Option DivideState
  | s, [] => some s
  | s, off :: rest => (divide_step first_start s off).bind fun s1 => divide_loop first_start s1 rest

/-- The source's `divide_handle`.  `forward_offsets` is computed as in the
source and, as in the source, the loop runs over `offsets`.  The source reads
`g_iv_idx` two lines before declaring it; it is the record of the forward
handle. -/
def divide_handle (g : SuccinctDynamicSequenceGraph) (handle : handle_t) (offsets : List Nat) :
    Option (SuccinctDynamicSequenceGraph × List Nat) :=
  (get_length g handle).bind fun node_length =>
    let _forward_offsets :=
      if get_is_reverse handle then offsets.map fun off => sub64 node_length off else offsets
    let forward_handle := forward handle
    (graph_iv_index g forward_handle).bind fun g_iv_idx =>
      (vec_get g.graph_iv (g_iv_idx + GRAPH_SEQ_START_OFFSET)).bind fun first_start =>
        (vec_get g.graph_iv (g_iv_idx + GRAPH_END_EDGES_OFFSET)).bind fun end_edges_idx =>
          (divide_loop first_start
              { g := g, return_val := [forward_handle], g_iv_idx := g_iv_idx,
                last_offset := 0, prev_id := get_id forward_handle } offsets).bind fun s =>
            (vec_set s.g.graph_iv (s.g_iv_idx + GRAPH_SEQ_LENGTH_OFFSET)
                (sub64 node_length s.last_offset)).bind fun graph1 =>
              (vec_set graph1 (s.g_iv_idx + GRAPH_END_EDGES_OFFSET) end_edges_idx).bind fun graph2 =>
                some ({ s.g with graph_iv := graph2 },
                      if get_is_reverse handle then s.return_val.reverse.map flip
                      else s.return_val)

/-! ## Record relocation (`dgraph.cpp` lines 128-143) -/

/-- The loop `for (size_t i = 0; i < GRAPH_RECORD_SIZE; i++)` of
`swap_handles`, after `n` iterations: fields `0` to `n - 1` of the records at
positions `a` and `b` are exchanged. -/
def swap_records (graph_iv : List Nat) (a b : Nat) : Nat → Option (List Nat)
  | 0 => some graph_iv
  | n + 1 =>
    (swap_records graph_iv a b n).bind fun v =>
      (vec_get v (a + n)).bind fun val =>
        (vec_get v (b + n)).bind fun other =>
          (vec_set v (a + n) other).bind fun v1 => vec_set v1 (b + n) val

/-- The source's `swap_handles`.  The two index writes are
`id_to_graph_iv.set(id_a, g_iv_index_b)` and `id_to_graph_iv.set(id_b,
g_iv_index_a)`: the position is the identifier itself and the value is the
position of the record in the record vector. -/
def swap_handles (g : SuccinctDynamicSequenceGraph) (a b : handle_t) :
    Option SuccinctDynamicSequenceGraph :=
  (graph_iv_index g a).bind fun g_iv_index_a =>
    (graph_iv_index g b).bind fun g_iv_index_b =>
      (swap_records g.graph_iv g_iv_index_a g_iv_index_b GRAPH_RECORD_SIZE).bind fun graph =>
        (vec_set g.id_to_graph_iv (to_u64 (get_id a)) g_iv_index_b).bind fun index1 =>
          (vec_set index1 (to_u64 (get_id b)) g_iv_index_a).bind fun index2 =>
            some { g with graph_iv := graph, id_to_graph_iv := index2 }

/-! ## Reporters and iteration (`dgraph.cpp` lines 170-198) -/

/-- The source's `node_size`.  The source line reads
`return graph_iv / GRAPH_RECORD_SIZE;`; it is read as the size of the record
vector divided by the record size, as in `for_each_handle`. -/
def node_size (g : SuccinctDynamicSequenceGraph) : Nat := g.graph_iv.length / GRAPH_RECORD_SIZE

/-- The source's `min_node_id`. -/
def min_node_id (g : SuccinctDynamicSequenceGraph) : Int := g.min_id

/-- The source's `max_node_id`. -/
def max_node_id (g : SuccinctDynamicSequenceGraph) : Int := g.max_id

/-- The loop `for (size_t i = 0; i < num_records; i++)` of `for_each_handle`,
after `n` iterations.  The visitor may carry state of its own; the flag it
returns is not looked at. -/
def for_each_handle_loop {α : Type} (g : SuccinctDynamicSequenceGraph)
    (iteratee : α → handle_t → Bool × α) : Nat → α → Option α
  | 0, acc => some acc
  | n + 1, acc =>
    (for_each_handle_loop g iteratee n acc).bind fun acc1 =>
      (vec_get g.graph_iv (n * GRAPH_RECORD_SIZE + GRAPH_ID_OFFSET)).bind fun id =>
        some (iteratee acc1 (get_handle (to_i64 id) false)).2

/-- The source's `for_each_handle`.  Both branches run the same loop; the
`omp parallel for` of the parallel branch only leaves the order of the
iterations open, and the embedding keeps the sequential order for it. -/
def for_each_handle {α : Type} (g : SuccinctDynamicSequenceGraph)
    (iteratee : α → handle_t → Bool × α) (in_parallel : Bool) (acc : α) : Option α :=
  if in_parallel then for_each_handle_loop g iteratee (g.graph_iv.length / GRAPH_RECORD_SIZE) acc
  else for_each_handle_loop g iteratee (g.graph_iv.length / GRAPH_RECORD_SIZE) acc

/-! ## Orientation (`dgraph.cpp` lines 200-227) -/

/-- The loop `for (size_t i = 0; i < seq_len / 2; i++)` of
`apply_orientation`, after `m` iterations.  For `i < seq_len / 2` the
subtraction `seq_start + seq_len - i - 1` does not wrap. -/
def apply_orientation_loop (seq_start seq_len : Nat) (seq_iv : List Nat) : Nat → Option (List Nat)
  | 0 => some seq_iv
  | m + 1 =>
    (apply_orientation_loop seq_start seq_len seq_iv m).bind fun v =>
      (vec_get v (seq_start + m)).bind fun base =>
        (vec_get v (seq_start + seq_len - m - 1)).bind fun other =>
          (vec_set v (seq_start + m) (complement_encoded_nucleotide other)).bind fun v1 =>
            vec_set v1 (seq_start + seq_len - m - 1) (complement_encoded_nucleotide base)

/-- The source's `apply_orientation`: the state it leaves and the handle it
returns. -/
def apply_orientation (g : SuccinctDynamicSequenceGraph) (handle : handle_t) :
    Option (SuccinctDynamicSequenceGraph × Nat) :=
  if get_is_reverse handle then
    (graph_iv_index g handle).bind fun g_iv_idx =>
      (vec_get g.graph_iv (g_iv_idx + GRAPH_SEQ_START_OFFSET)).bind fun seq_start =>
        (vec_get g.graph_iv (g_iv_idx + GRAPH_SEQ_LENGTH_OFFSET)).bind fun seq_len =>
          (apply_orientation_loop seq_start seq_len g.seq_iv (seq_len / 2)).bind fun v =>
            (if seq_len % 2 ≠ 0 then
                (vec_get v (seq_start + seq_len / 2)).bind fun c =>
                  vec_set v (seq_start + seq_len / 2) (complement_encoded_nucleotide c)
              else some v).bind fun v1 =>
              some ({ g with seq_iv := v1 }, flip handle)
  else some (g, handle)

/-! ## Reading the stores the way the data model describes them -/

/-- Modelled from the spec: the constructor body is empty, so every store
starts empty; the initial values of `min_id` and `max_id` are member
initialisers in the missing header and are parameters here. -/
def empty_graph (min_id max_id : Int) : SuccinctDynamicSequenceGraph :=
  { graph_iv := [], seq_iv := [], boundary_bv := [], edge_lists_iv := [], id_to_graph_iv := [],
    max_id := max_id, min_id := min_id }

/-- Field `off` of the `k`-th Node Record (counted from 0). -/
def record_field (g : SuccinctDynamicSequenceGraph) (k off : Nat) : Option Nat :=
  vec_get g.graph_iv (k * GRAPH_RECORD_SIZE + off)

/-- The identifiers of the Node Records, in storage order. -/
def record_ids (g : SuccinctDynamicSequenceGraph) : List Int :=
  (List.range (node_size g)).map fun k => to_i64 ((record_field g k GRAPH_ID_OFFSET).getD 0)

/-- The number of Node Records that carry the identifier `id`. -/
def records_with_id (g : SuccinctDynamicSequenceGraph) (id : Int) : Nat :=
  (record_ids g).count id

/-- The Identifier Index invariant of the data model: for the `k`-th record,
with identifier `id`, position `id - min_id` of the index holds `k + 1`. -/
def index_invariant (g : SuccinctDynamicSequenceGraph) : Bool :=
  (List.range (node_size g)).all fun k =>
    match record_field g k GRAPH_ID_OFFSET with
    | none => false
    | some v =>
      decide (0 ≤ to_i64 v - g.min_id)
        && (vec_get g.id_to_graph_iv (to_i64 v - g.min_id).toNat == some (k + 1))

/-- The sequence interval `(seq_start, seq_length)` of the `k`-th record. -/
def record_interval (g : SuccinctDynamicSequenceGraph) (k : Nat) : Nat × Nat :=
  ((record_field g k GRAPH_SEQ_START_OFFSET).getD 0, (record_field g k GRAPH_SEQ_LENGTH_OFFSET).getD 0)

/-- Every record's interval lies within the sequence store. -/
def intervals_in_store (g : SuccinctDynamicSequenceGraph) : Bool :=
  (List.range (node_size g)).all fun k =>
    decide ((record_interval g k).1 + (record_interval g k).2 ≤ g.seq_iv.length)

/-- The intervals of two distinct records have no position in common. -/
def intervals_disjoint (g : SuccinctDynamicSequenceGraph) : Bool :=
  (List.range (node_size g)).all fun k =>
    (List.range (node_size g)).all fun l =>
      decide (k = l) || decide ((record_interval g k).2 = 0) || decide ((record_interval g l).2 = 0)
        || decide ((record_interval g k).1 + (record_interval g k).2 ≤ (record_interval g l).1)
        || decide ((record_interval g l).1 + (record_interval g l).2 ≤ (record_interval g k).1)

/-- The boundary marker is set at every record's `seq_start`. -/
def boundaries_marked (g : SuccinctDynamicSequenceGraph) : Bool :=
  (List.range (node_size g)).all fun k =>
    vec_get g.boundary_bv (record_interval g k).1 == some 1

/-- A visitor that also keeps a log: every invocation appends the handle it
was given and the flag it returned. -/
def logged {α : Type} (iteratee : α → handle_t → Bool × α) :
    α × List (Nat × Bool) → handle_t → Bool × (α × List (Nat × Bool)) :=
  fun s h => ((iteratee s.1 h).1, ((iteratee s.1 h).2, s.2 ++ [(h, (iteratee s.1 h).1)]))

/-! ## Example states -/

/-- One node, identifier 1, sequence ACGT, no edges. -/
def graph_one : SuccinctDynamicSequenceGraph :=
  { graph_iv := [1, 0, 0, 0, 4], seq_iv := [0, 1, 2, 3], boundary_bv := [1, 0, 0, 0],
    edge_lists_iv := [], id_to_graph_iv := [1], max_id := 1, min_id := 1 }

/-- Two nodes, identifiers 1 (ACGT) and 2 (GTCA), no edges. -/
def graph_two : SuccinctDynamicSequenceGraph :=
  { graph_iv := [1, 0, 0, 0, 4, 2, 0, 0, 4, 4], seq_iv := [0, 1, 2, 3, 2, 3, 1, 0],
    boundary_bv := [1, 0, 0, 0, 1, 0, 0, 0],
    edge_lists_iv := [], id_to_graph_iv := [1, 2], max_id := 2, min_id := 1 }

/-- Three nodes, identifiers 1 (ACGT), 2 (GTCA) and 3 (TTG), no edges. -/
def graph_three : SuccinctDynamicSequenceGraph :=
  { graph_iv := [1, 0, 0, 0, 4, 2, 0, 0, 4, 4, 3, 0, 0, 8, 3],
    seq_iv := [0, 1, 2, 3, 2, 3, 1, 0, 3, 3, 2],
    boundary_bv := [1, 0, 0, 0, 1, 0, 0, 0, 1, 0, 0],
    edge_lists_iv := [], id_to_graph_iv := [1, 2, 3], max_id := 3, min_id := 1 }

/-- Two nodes, identifiers 1 (ACGT) and 2 (GTCA), with the edge from the end
of node 1 to the start of node 2 as the data model stores it: record 1
(target 4) in the end list of node 1 and record 2 (target `flip 2` = 3) in the
start list of node 2. -/
def graph_linked : SuccinctDynamicSequenceGraph :=
  { graph_iv := [1, 0, 1, 0, 4, 2, 2, 0, 4, 4], seq_iv := [0, 1, 2, 3, 2, 3, 1, 0],
    boundary_bv := [1, 0, 0, 0, 1, 0, 0, 0],
    edge_lists_iv := [4, 0, 3, 0], id_to_graph_iv := [1, 2], max_id := 2, min_id := 1 }

/-! ## Shape of the edge lists -/

/-- The number of Edge Records. -/
def edge_count (g : SuccinctDynamicSequenceGraph) : Nat := g.edge_lists_iv.length / EDGE_RECORD_SIZE

/-- Every Edge Record's `next` field is 0 or smaller than the record's own
1-based index. -/
def edge_next_below_index (g : SuccinctDynamicSequenceGraph) : Bool :=
  (List.range (edge_count g)).all fun k =>
    match vec_get g.edge_lists_iv (k * EDGE_RECORD_SIZE + EDGE_NEXT_OFFSET) with
    | none => false
    | some next => decide (next < k + 1)

/-- Every edge-list head of every Node Record is at most the number of Edge
Records (0 being the empty list). -/
def edge_heads_in_range (g : SuccinctDynamicSequenceGraph) : Bool :=
  (List.range (node_size g)).all fun k =>
    match record_field g k GRAPH_START_EDGES_OFFSET, record_field g k GRAPH_END_EDGES_OFFSET with
    | some s, some e => decide (s ≤ edge_count g) && decide (e ≤ edge_count g)
    | _, _ => false

end dankgraph

/-!
# Path binning (`src/algorithms/bin_path_info.cpp`, `src/subcommand/bin_main.cpp`)

Strings are lists of characters, `uint64_t` values are naturals below
`2 ^ 64`.  The functions of the C++ standard library that the code calls
(`std::string::find`, `std::string::substr`, `std::lower_bound`, `std::sort`)
are modelled, each definition saying so.
-/

namespace odgi

/-! ## Standard library -/

/-- Modelled from the C++ standard library: `std::string::npos`, the largest
`size_t`. -/
def npos : Nat := 2 ^ 64 - 1

/-- Modelled from the C++ standard library: the search of `std::string::find`
from position `pos`, over the rest `s` of the string. -/
def find_from (d : List Char) : List Char → Nat → Nat
  | [], pos => if d = [] then pos else npos
  | c :: s, pos => if d.isPrefixOf (c :: s) then pos else find_from d s (pos + 1)

/-- Modelled from the C++ standard library: `s.find(d)`, the first position at
which `d` occurs in `s`, `npos` when it does not occur. -/
def string_find (s d : List Char) : Nat := find_from d s 0

/-- Modelled from the C++ standard library: `s.substr(pos, count)`; a `pos`
past the end throws and has no value here. -/
def string_substr (s : List Char) (pos count : Nat) : Option (List Char) :=
  if s.length < pos then none else some ((s.drop pos).take count)

/-- Modelled from the C++ standard library: `std::lower_bound` on a sorted
range, as the position of the first element that is not less than `v`. -/
def lower_bound : List Nat → Nat → Nat
  | [], _ => 0
  | x :: xs, v => if x < v then lower_bound xs v + 1 else 0

/-! ## Path name splitting (`bin_path_info.cpp` lines 6-20) -/

/-- The source's `BinSerializer::get_path_prefix`. -/
def get_path_prefix (path_delim : List Char) (aggregate_delim : Bool) (path_name : List Char) :
    Option (List Char) :=
  if aggregate_delim || path_delim.isEmpty then some ['N', 'A']
  else string_substr path_name 0 (string_find path_name path_delim)

/-- The source's `BinSerializer::get_path_suffix`: the start is
`find(path_delim) + 1`, computed in `size_t`. -/
def get_path_suffix (path_delim : List Char) (aggregate_delim : Bool) (path_name : List Char) :
    Option (List Char) :=
  if aggregate_delim || path_delim.isEmpty then some ['N', 'A']
  else string_substr path_name ((string_find path_name path_delim + 1) % 2 ^ 64) npos

/-! ## Bin sizing (`bin_path_info.cpp` lines 47-52, `bin_main.cpp` lines 161-164) -/

/-- The check of `main_bin` that lets the run go on:
`args::get(num_bins) + args::get(bin_width) == 0` is an error, the sum being
taken in `uint64_t`. -/
def main_bin_accepts (num_bins bin_width : Nat) : Bool := (num_bins + bin_width) % 2 ^ 64 != 0

/-- The normalisation of `(num_bins, bin_width)` in `bin_path_info` for a graph
of total length `len`: the pair after lines 47-52.  A division by zero has no
value. -/
def bin_sizing (len num_bins bin_width : Nat) : Option (Nat × Nat) :=
  if num_bins = 0 then
    if bin_width = 0 then none
    else some (len / bin_width + (if len % bin_width ≠ 0 then 1 else 0), bin_width)
  else if bin_width = 0 then
    if len / num_bins = 0 then none
    else some (len / (len / num_bins) + (if len % (len / num_bins) ≠ 0 then 1 else 0),
      len / num_bins)
  else some (num_bins, bin_width)

/-! ## Gap link filter (`bin_path_info.cpp` lines 113-142) -/

/-- The write `links[fill_pos++] = link`. -/
def keep_link (st : List (Nat × Nat) × Nat) (link : Nat × Nat) : Option (List (Nat × Nat) × Nat) :=
  if st.2 < st.1.length then some (st.1.set st.2 link, st.2 + 1) else none

/-- The loop `for (uint64_t i = 0; i < links.size(); ++i)` of the gap link
filter, after `n` iterations: the link vector, rewritten in place, and
`fill_pos`. -/
def drop_gap_links_loop (bin_ids : List Nat) (links : List (Nat × Nat)) :
    Nat → Option (List (Nat × Nat) × Nat)
  | 0 => some (links, 0)
  | i + 1 =>
    (drop_gap_links_loop bin_ids links i).bind fun st =>
      match st.1[i]? with
      | none => none
      | some link =>
        if link.1 = 0 ∨ link.2 = 0 then some st
        else if link.2 < link.1 then keep_link st link
        else if lower_bound bin_ids ((link.1 + 1) % 2 ^ 64) < lower_bound bin_ids link.2 then
          keep_link st link
        else some st

/-- The block `if (drop_gap_links) { ... }` of `bin_path_info`: from the keys of
the bin map, the links of the path and the counter, the links after
`links.resize(fill_pos)` and the counter after `gap_links_removed += ...`.
The counter is not reduced modulo `2 ^ 64`: it counts elements of vectors held
in memory. -/
def drop_gap_links (bins : List Nat) (links : List (Nat × Nat)) (gap_links_removed : Nat) :
    Option (List (Nat × Nat) × Nat) :=
  (drop_gap_links_loop (bins.insertionSort (· ≤ ·)) links links.length).bind fun st =>
    some (st.1.take st.2, gap_links_removed + (st.1.length - st.2))

/-- The decision the loop of the gap link filter takes for one link: whether
it is written back to the vector. -/
def link_passes (bin_ids : List Nat) (link : Nat × Nat) : Bool :=
  if link.1 = 0 ∨ link.2 = 0 then false
  else if link.2 < link.1 then true
  else decide (lower_bound bin_ids ((link.1 + 1) % 2 ^ 64) < lower_bound bin_ids link.2)

/-- The links the filter is to keep, in the words of the claim: both ends are
non-zero and either the link goes backwards or some populated bin id `x` has
`link.1 + 1 ≤ x < link.2`. -/
def is_kept (bins : List Nat) (link : Nat × Nat) : Bool :=
  decide (link.1 ≠ 0) && decide (link.2 ≠ 0)
    && (decide (link.2 < link.1) || bins.any fun x => decide (link.1 + 1 ≤ x) && decide (x < link.2))

end odgi

namespace dankgraph

/-! ## Handle encoding: lemmas -/

theorem xor_one_div_two (h : Nat) : (h ^^^ 1) / 2 = h / 2 := by
  rw [Nat.xor_div_two]
  simp

theorem xor_one_mod_two (h : Nat) : (h ^^^ 1) % 2 = (h + 1) % 2 :=
  Nat.xor_mod_two_eq

theorem get_id_flip (h : Nat) : get_id (flip h) = get_id h := by
  have hd := xor_one_div_two h
  have hm := xor_one_mod_two h
  unfold get_id to_i64 flip
  rw [Int.shiftRight_eq_div_pow, Int.shiftRight_eq_div_pow]
  generalize h ^^^ 1 = f at hd hm ⊢
  simp only [pow_one, Nat.cast_ofNat]
  split_ifs <;> omega

theorem get_is_reverse_flip (h : Nat) : get_is_reverse (flip h) = !get_is_reverse h := by
  have hm := xor_one_mod_two h
  unfold get_is_reverse flip
  rw [Nat.and_one_is_mod, Nat.and_one_is_mod]
  generalize h ^^^ 1 = f at hm ⊢
  rcases Nat.mod_two_eq_zero_or_one h with h0 | h1
  · have : f % 2 = 1 := by omega
    simp [h0, this]
  · have : f % 2 = 0 := by omega
    simp [h1, this]

theorem get_handle_true_eq_zero (id : Int) : get_handle id true = 0 := by
  unfold get_handle
  simp only [if_true, Nat.and_one_is_mod, Nat.shiftLeft_eq, pow_one]
  omega

theorem get_handle_false_roundtrip (id : Int) (h1 : -(2 : Int) ^ 62 ≤ id) (h2 : id < (2 : Int) ^ 62) :
    get_id (get_handle id false) = id ∧ get_is_reverse (get_handle id false) = false := by
  unfold get_handle get_id get_is_reverse to_i64 to_u64
  simp only [Bool.false_eq_true, if_false, Nat.shiftLeft_eq, pow_one, Int.shiftRight_eq_div_pow,
    Nat.and_one_is_mod, Nat.cast_ofNat]
  generalize hx : (id % 2 ^ 64).toNat = x
  have hx' : (x : Int) = id % 2 ^ 64 := by
    rw [← hx]
    exact Int.toNat_of_nonneg (Int.emod_nonneg _ (by norm_num))
  constructor
  · split_ifs <;> omega
  · have : x * 2 % 2 ^ 64 % 2 = 0 := by omega
    rw [this]
    rfl

/-! ## Codec: lemmas -/

theorem decode_nucleotide_is_base (n : Nat) : is_base (decode_nucleotide n) := by
  unfold is_base decode_nucleotide
  split <;> simp

theorem complement_twice (c : Char) (hc : is_base c) :
    decode_nucleotide (complement_encoded_nucleotide (encode_nucleotide
      (decode_nucleotide (complement_encoded_nucleotide (encode_nucleotide c))))) = c := by
  rcases hc with h | h | h | h | h <;> subst h <;> decide

theorem reverse_complement_twice (seq : List Char) (hseq : ∀ c ∈ seq, is_base c) :
    reverse_complement (reverse_complement seq) = seq := by
  unfold reverse_complement
  rw [List.map_reverse, List.reverse_reverse, List.map_map]
  conv_rhs => rw [← List.map_id seq]
  apply List.map_congr_left
  intro c hc
  simpa using complement_twice c (hseq c hc)

theorem decode_encode_of_is_base (c : Char) (hc : is_base c) :
    decode_nucleotide (encode_nucleotide c) = c := by
  rcases hc with h | h | h | h | h <;> subst h <;> decide

/-! ## Packed vectors: lemmas -/

theorem vec_get_lt (v : List Nat) (i x : Nat) (h : vec_get v i = some x) : i < v.length := by
  unfold vec_get at h
  by_contra hc
  rw [List.getElem?_eq_none (by omega)] at h
  cases h

theorem vec_get_of_lt (v : List Nat) (i : Nat) (h : i < v.length) : ∃ x, vec_get v i = some x := by
  unfold vec_get
  exact ⟨v[i], List.getElem?_eq_getElem h⟩

theorem vec_get_append_left (v w : List Nat) (i x : Nat) (h : vec_get v i = some x) :
    vec_get (v ++ w) i = some x := by
  unfold vec_get at h ⊢
  have hi : i < v.length := by
    by_contra hc
    rw [List.getElem?_eq_none (by omega)] at h
    cases h
  rw [List.getElem?_append_left hi]
  exact h

theorem vec_get_append_length (v : List Nat) (x y : Nat) (w : List Nat) :
    vec_get (v ++ x :: y :: w) v.length = some x
      ∧ vec_get (v ++ x :: y :: w) (v.length + 1) = some y := by
  unfold vec_get
  constructor
  · rw [List.getElem?_append_right (Nat.le_refl _)]
    simp
  · rw [List.getElem?_append_right (Nat.le_add_right _ _)]
    simp

theorem vec_set_eq_some (v : List Nat) (i x : Nat) (h : i < v.length) :
    vec_set v i x = some (v.set i x) := by
  unfold vec_set
  rw [if_pos h]

theorem vec_get_set_self (v : List Nat) (i x : Nat) (h : i < v.length) :
    vec_get (v.set i x) i = some x := by
  unfold vec_get
  rw [List.getElem?_set_self h]

theorem vec_get_set_ne (v : List Nat) (i j x : Nat) (h : i ≠ j) :
    vec_get (v.set i x) j = vec_get v j := by
  unfold vec_get
  rw [List.getElem?_set_ne h]

/-! ## Records and sequences: lemmas -/

theorem graph_iv_index_flip (g : SuccinctDynamicSequenceGraph) (h : Nat) :
    graph_iv_index g (flip h) = graph_iv_index g h := by
  unfold graph_iv_index
  rw [get_id_flip]

theorem graph_iv_index_congr (g g' : SuccinctDynamicSequenceGraph) (h : Nat)
    (h1 : g'.id_to_graph_iv = g.id_to_graph_iv) (h2 : g'.min_id = g.min_id) :
    graph_iv_index g' h = graph_iv_index g h := by
  unfold graph_iv_index
  rw [h1, h2]

theorem graph_iv_index_edges (g : SuccinctDynamicSequenceGraph) (graph edges : List Nat) (h : Nat) :
    graph_iv_index { g with graph_iv := graph, edge_lists_iv := edges } h = graph_iv_index g h :=
  graph_iv_index_congr _ g h rfl rfl

theorem decode_interval_is_base (seq_iv : List Nat) (seq_start : Nat) :
    ∀ (n : Nat) (seq : List Char), decode_interval seq_iv seq_start n = some seq →
      ∀ c ∈ seq, is_base c := by
  intro n
  induction n with
  | zero =>
    intro seq hs c hc
    simp [decode_interval] at hs
    subst hs
    simp at hc
  | succ n ih =>
    intro seq hs c hc
    simp only [decode_interval, Option.bind_eq_some] at hs
    obtain ⟨pre, hpre, x, _, hx⟩ := hs
    simp only [Option.some.injEq] at hx
    subst hx
    rcases List.mem_append.mp hc with h | h
    · exact ih pre hpre c h
    · simp only [List.mem_singleton] at h
      subst h
      exact decode_nucleotide_is_base x

theorem decode_interval_eq (v : List Nat) (start : Nat) :
    ∀ n, start + n ≤ v.length →
      decode_interval v start n = some (((v.drop start).take n).map decode_nucleotide) := by
  intro n
  induction n with
  | zero => intro _; simp [decode_interval]
  | succ n ih =>
    intro hn
    have hlt : start + n < v.length := by omega
    simp only [decode_interval, ih (by omega), Option.some_bind, vec_get,
      List.getElem?_eq_getElem hlt, Option.some.injEq]
    rw [List.take_succ, List.map_append]
    congr 1
    simp [List.getElem?_drop, List.getElem?_eq_getElem hlt]

/-- The state `create_handle` computes when the next identifier is not below
`min_id`. -/
theorem create_handle_eq (g : SuccinctDynamicSequenceGraph) (s : List Char)
    (hmin : g.min_id ≤ g.max_id + 1) :
    create_handle g s = some
      ({ graph_iv := g.graph_iv ++ [to_u64 (g.max_id + 1), 0, 0, g.seq_iv.length, s.length],
         seq_iv := g.seq_iv ++ s.map encode_nucleotide,
         boundary_bv := g.boundary_bv ++ (List.range s.length).map fun i => if i = 0 then 1 else 0,
         edge_lists_iv := g.edge_lists_iv,
         id_to_graph_iv := (g.id_to_graph_iv ++ [0]).set 0 ((g.graph_iv.length + 5) / 5),
         max_id := g.max_id + 1,
         min_id := g.max_id + 1 }, none) := by
  have h1 : (g.min_id - (g.max_id + 1)).toNat = 0 := by omega
  have h2 : (g.max_id + 1 - g.max_id).toNat = 1 := by omega
  have h3 : max (g.max_id + 1) g.max_id = g.max_id + 1 := by omega
  have h4 : max (g.max_id + 1) g.min_id = g.max_id + 1 := by omega
  unfold create_handle create_handle_id
  simp only [h1, h2, h3, h4, List.replicate_zero, List.replicate_one, List.nil_append, sub_self,
    lt_self_iff_false, if_false, Int.toNat_zero]
  rw [vec_set_eq_some _ _ _ (by simp)]
  simp

/-- What `create_handle` leaves behind: on a state whose record store holds
whole records, whose next identifier `max_id + 1` is not below `min_id` and
fits the handle encoding, the forward handle of the new identifier reads the
sequence that was given, for every sequence over A, C, G, T, N.  No handle is
handed back. -/
theorem create_handle_stores_sequence (g : SuccinctDynamicSequenceGraph) (s : List Char)
    (hrec : g.graph_iv.length % GRAPH_RECORD_SIZE = 0)
    (hmin : g.min_id ≤ g.max_id + 1)
    (hlo : -(2 : Int) ^ 62 ≤ g.max_id + 1) (hhi : g.max_id + 1 < (2 : Int) ^ 62)
    (hs : ∀ c ∈ s, is_base c) :
    ∃ g', create_handle g s = some (g', none)
      ∧ get_sequence g' (get_handle (g.max_id + 1) false) = some s := by
  refine ⟨_, create_handle_eq g s hmin, ?_⟩
  obtain ⟨hid, hfw⟩ := get_handle_false_roundtrip (g.max_id + 1) hlo hhi
  have hdiv : (g.graph_iv.length + 5) / 5 = g.graph_iv.length / 5 + 1 := by omega
  have hmul : g.graph_iv.length / 5 * GRAPH_RECORD_SIZE = g.graph_iv.length := by
    simp only [GRAPH_RECORD_SIZE] at hrec ⊢
    omega
  have hidx : graph_iv_index
      { graph_iv := g.graph_iv ++ [to_u64 (g.max_id + 1), 0, 0, g.seq_iv.length, s.length],
        seq_iv := g.seq_iv ++ s.map encode_nucleotide,
        boundary_bv := g.boundary_bv ++ (List.range s.length).map fun i => if i = 0 then 1 else 0,
        edge_lists_iv := g.edge_lists_iv,
        id_to_graph_iv := (g.id_to_graph_iv ++ [0]).set 0 ((g.graph_iv.length + 5) / 5),
        max_id := g.max_id + 1,
        min_id := g.max_id + 1 } (get_handle (g.max_id + 1) false) = some g.graph_iv.length := by
    unfold graph_iv_index
    simp only [hid, sub_self, lt_self_iff_false, if_false, Int.toNat_zero]
    rw [vec_get_set_self _ _ _ (by simp), hdiv]
    simp only [hmul]
  unfold get_sequence
  rw [hidx]
  have hstart : vec_get (g.graph_iv ++ [to_u64 (g.max_id + 1), 0, 0, g.seq_iv.length, s.length])
      (g.graph_iv.length + GRAPH_SEQ_START_OFFSET) = some g.seq_iv.length := by
    unfold vec_get
    rw [List.getElem?_append_right (Nat.le_add_right _ _)]
    simp
  have hlen : vec_get (g.graph_iv ++ [to_u64 (g.max_id + 1), 0, 0, g.seq_iv.length, s.length])
      (g.graph_iv.length + GRAPH_SEQ_LENGTH_OFFSET) = some s.length := by
    unfold vec_get
    rw [List.getElem?_append_right (Nat.le_add_right _ _)]
    simp
  simp only [Option.some_bind, hstart, hlen]
  rw [decode_interval_eq _ _ _ (by simp)]
  simp only [Option.some_bind, hfw, Bool.false_eq_true, if_false, Option.some.injEq]
  rw [List.drop_left]
  have hm : (s.map encode_nucleotide).length = s.length := List.length_map _ _
  rw [← hm, List.take_length, List.map_map]
  conv_rhs => rw [← List.map_id s]
  apply List.map_congr_left
  intro c hc
  simpa using decode_encode_of_is_base c (hs c hc)

/-! ## The list walk and edge creation: lemmas -/

theorem follow_edges_loop_zero {α : Type} (E : List Nat) (go_left : Bool)
    (iteratee : α → handle_t → Bool × α) (fuel : Nat) (keep_going : Bool) (acc : α) :
    follow_edges_loop E go_left iteratee fuel 0 keep_going acc = some (keep_going, acc) := by
  cases fuel <;> simp [follow_edges_loop]

theorem follow_edges_loop_done {α : Type} (E : List Nat) (go_left : Bool)
    (iteratee : α → handle_t → Bool × α) (fuel edge_idx : Nat) (keep_going : Bool) (acc : α)
    (hc : ¬ (edge_idx ≠ 0 ∧ keep_going = true)) :
    follow_edges_loop E go_left iteratee fuel edge_idx keep_going acc = some (keep_going, acc) := by
  cases fuel <;> simp only [follow_edges_loop, if_neg hc]

theorem follow_edges_loop_step {α : Type} (E : List Nat) (go_left : Bool)
    (iteratee : α → handle_t → Bool × α) (fuel edge_idx : Nat) (keep_going : Bool) (acc : α)
    (hc : edge_idx ≠ 0 ∧ keep_going = true) :
    follow_edges_loop E go_left iteratee (fuel + 1) edge_idx keep_going acc
      = (vec_get E ((edge_idx - 1) * EDGE_RECORD_SIZE + EDGE_TRAV_OFFSET)).bind fun t =>
          (vec_get E ((edge_idx - 1) * EDGE_RECORD_SIZE + EDGE_NEXT_OFFSET)).bind fun next =>
            follow_edges_loop E go_left iteratee fuel next
              (iteratee acc (if go_left then flip (decode_edge_target t) else decode_edge_target t)).1
              (iteratee acc (if go_left then flip (decode_edge_target t) else decode_edge_target t)).2 := by
  simp only [follow_edges_loop, if_pos hc]

/-- Appending records to the edge store does not change a walk that ends. -/
theorem follow_edges_loop_append {α : Type} (E X : List Nat) (go_left : Bool)
    (iteratee : α → handle_t → Bool × α) :
    ∀ (fuel edge_idx : Nat) (keep_going : Bool) (acc : α) (r : Bool × α),
      follow_edges_loop E go_left iteratee fuel edge_idx keep_going acc = some r →
      follow_edges_loop (E ++ X) go_left iteratee fuel edge_idx keep_going acc = some r := by
  intro fuel
  induction fuel with
  | zero =>
    intro edge_idx keep_going acc r h
    simpa [follow_edges_loop] using h
  | succ n ih =>
    intro edge_idx keep_going acc r h
    by_cases hc : edge_idx ≠ 0 ∧ keep_going = true
    · rw [follow_edges_loop_step _ _ _ _ _ _ _ hc] at h ⊢
      simp only [Option.bind_eq_some] at h ⊢
      obtain ⟨t, ht, nx, hnx, hrest⟩ := h
      exact ⟨t, vec_get_append_left _ _ _ _ ht, nx, vec_get_append_left _ _ _ _ hnx,
        ih _ _ _ _ hrest⟩
    · rw [follow_edges_loop_done _ _ _ _ _ _ _ hc] at h ⊢
      exact h

/-- A walk with the collecting visitor appends to what was collected before. -/
theorem follow_edges_loop_collect (E : List Nat) (go_left : Bool) :
    ∀ (fuel edge_idx : Nat) (acc pre : List Nat) (r : Bool × List Nat),
      follow_edges_loop E go_left (fun (acc : List Nat) h => (true, acc ++ [h])) fuel edge_idx true acc
        = some r →
      follow_edges_loop E go_left (fun (acc : List Nat) h => (true, acc ++ [h])) fuel edge_idx true
        (pre ++ acc) = some (r.1, pre ++ r.2) := by
  intro fuel
  induction fuel with
  | zero =>
    intro edge_idx acc pre r h
    by_cases hc : edge_idx ≠ 0 ∧ true = true
    · simp [follow_edges_loop, hc] at h
    · rw [follow_edges_loop_done _ _ _ _ _ _ _ hc] at h ⊢
      cases h
      rfl
  | succ n ih =>
    intro edge_idx acc pre r h
    by_cases hc : edge_idx ≠ 0 ∧ true = true
    · rw [follow_edges_loop_step _ _ _ _ _ _ _ hc] at h ⊢
      simp only [Option.bind_eq_some] at h ⊢
      obtain ⟨t, ht, nx, hnx, hrest⟩ := h
      refine ⟨t, ht, nx, hnx, ?_⟩
      have := ih nx _ pre r hrest
      simpa [List.append_assoc] using this
    · rw [follow_edges_loop_done _ _ _ _ _ _ _ hc] at h ⊢
      cases h
      rfl

/-- What `create_edge` computes when the walk over the list of `left` asks
for the edge to be added. -/
theorem create_edge_adds (g : SuccinctDynamicSequenceGraph) (fuel : Nat) (left right : Nat)
    (i L R hl hr : Nat) (u : Unit)
    (hwalk : follow_edges g fuel left false (fun (_ : Unit) next => (next == right, ())) ()
      = some (true, u))
    (hidx : graph_iv_index g left = some i)
    (hL : L = i + (if get_is_reverse left then GRAPH_START_EDGES_OFFSET else GRAPH_END_EDGES_OFFSET))
    (hR : R = i + (if get_is_reverse left then GRAPH_END_EDGES_OFFSET else GRAPH_START_EDGES_OFFSET))
    (hgl : vec_get g.graph_iv L = some hl) (hgr : vec_get g.graph_iv R = some hr) :
    create_edge g fuel left right = some
      { g with
        graph_iv := (g.graph_iv.set L ((g.edge_lists_iv.length + 2) / 2)).set R
          ((g.edge_lists_iv.length + 4) / 2),
        edge_lists_iv := g.edge_lists_iv ++ [right, hl] ++ [flip left, hr] } := by
  have hLR : L ≠ R := by
    rw [hL, hR]
    cases get_is_reverse left <;> simp
  have hLlt := vec_get_lt _ _ _ hgl
  have hRlt := vec_get_lt _ _ _ hgr
  unfold create_edge
  rw [hwalk]
  simp only [Option.some_bind, Bool.true_eq_false, if_false, hidx, ← hL, ← hR, hgl,
    encode_edge_target, vec_set_eq_some _ _ _ hLlt, if_neg hLR, vec_get_set_ne _ _ _ _ hLR, hgr,
    List.length_append, List.length_cons, List.length_nil]
  rw [vec_set_eq_some _ _ _ (by rw [List.length_set]; exact hRlt)]
  have h4 : (g.edge_lists_iv.length + 4) / 2 = g.edge_lists_iv.length / 2 + 1 + 1 := by omega
  simp [h4]

/-! ## Claims C1 to C4: handles and sequences -/

/-- C1: on the one-node graph, `create_handle` of the sequence GT hands no
handle back to the caller (the body has no `return`), although the state it
leaves holds GT under the forward handle of the new identifier 2. -/
theorem create_handle_returns_no_handle :
    (create_handle graph_one ['G', 'T']).map (fun r => r.2) = some none
      ∧ ((create_handle graph_one ['G', 'T']).bind fun r => get_sequence r.1 (get_handle 2 false))
          = some ['G', 'T'] := by
  decide

/-- C2: `get_handle` with `is_reverse` set evaluates `(node_id << 1) & 1`, so
for every identifier it is the handle 0, whose identifier is 0 and whose
orientation is forward; the handle does not carry `(id << 1) | 1`. -/
theorem get_handle_reverse_is_zero (id : Int) :
    get_handle id true = 0 ∧ get_id (get_handle id true) = 0
      ∧ get_is_reverse (get_handle id true) = false := by
  rw [get_handle_true_eq_zero]
  exact ⟨rfl, by decide, by decide⟩

/-- C3: for every handle `h`, `flip (flip h) = h`, `flip` keeps the identifier
and `flip` changes the orientation. -/
theorem flip_flip_id_orientation (h : Nat) :
    flip (flip h) = h ∧ get_id (flip h) = get_id h
      ∧ get_is_reverse (flip h) ≠ get_is_reverse h := by
  refine ⟨?_, get_id_flip h, ?_⟩
  · unfold flip
    exact Nat.xor_cancel_right 1 h
  · rw [get_is_reverse_flip]
    cases get_is_reverse h <;> simp

/-- C4: for every graph state and every handle `h` whose sequence can be read
(a handle of a live node), `get_sequence (flip h)` is the reverse complement of
`get_sequence h`.  `get_sequence` only reads the state. -/
theorem get_sequence_flip (g : SuccinctDynamicSequenceGraph) (h : Nat) (seq : List Char)
    (hlive : get_sequence g h = some seq) :
    get_sequence g (flip h) = some (reverse_complement seq) := by
  unfold get_sequence at hlive ⊢
  rw [graph_iv_index_flip, get_is_reverse_flip]
  simp only [Option.bind_eq_some] at hlive ⊢
  obtain ⟨i, hi, start, hstart, len, hlen, s0, hs0, hseq⟩ := hlive
  refine ⟨i, hi, start, hstart, len, hlen, s0, hs0, ?_⟩
  simp only [Option.some.injEq] at hseq ⊢
  subst hseq
  cases hrev : get_is_reverse h
  · simp
  · simp only [Bool.not_true, if_true]
    rw [reverse_complement_twice s0 (decode_interval_is_base _ _ _ _ hs0)]
    simp

/-- Witness for C4: the reverse handle of node 2 (GTCA) of the two-node graph. -/
theorem get_sequence_flip_witness :
    get_sequence graph_two 4 = some ['G', 'T', 'C', 'A']
      ∧ get_sequence graph_two (flip 4) = some (reverse_complement ['G', 'T', 'C', 'A']) :=
  ⟨by decide, get_sequence_flip graph_two 4 ['G', 'T', 'C', 'A'] (by decide)⟩

/-! ## Claims C5 and C6: edge creation -/

/-- C5: `create_edge` does not make `b` see `a`.  On the two-node graph with
`a` = 2 and `b` = 4 no edge leaves `a` before the call.  After `create_edge a b`
the rightward walk from `a` invokes the visitor on `b`, but the leftward walk
from `b` invokes it on nothing, neither on `flip a` = 3 nor on `a`: the second
Edge Record (target 3) is linked into the start list of node 1, the node of
`a`, whose leftward walk now reports `a` itself, and the record of node 2 is
untouched.  When `a` already has an edge to another handle (the two-node graph
with the edge from node 1 to node 2, `b` = 5), `create_edge a b` leaves the
state as it is and the rightward walk from `a` does not reach `b`. -/
theorem create_edge_misses_reciprocal :
    (get_length graph_two 2 = some 4 ∧ get_length graph_two 4 = some 4
      ∧ visited graph_two 2 2 false = some []
      ∧ ((create_edge graph_two 2 2 4).bind fun g => visited g 2 2 false) = some [4]
      ∧ ((create_edge graph_two 2 2 4).bind fun g => visited g 2 4 true) = some []
      ∧ ((create_edge graph_two 2 2 4).bind fun g => visited g 2 2 true) = some [2]
      ∧ ((create_edge graph_two 2 2 4).map fun g => (g.edge_lists_iv, g.graph_iv))
          = some ([4, 0, 3, 0], [1, 2, 1, 0, 4, 2, 0, 0, 4, 4]))
    ∧ (get_length graph_linked 2 = some 4 ∧ get_length graph_linked 5 = some 4
      ∧ visited graph_linked 2 2 false = some [4]
      ∧ ((create_edge graph_linked 2 2 5).map fun g => (g.edge_lists_iv, g.graph_iv))
          = some (graph_linked.edge_lists_iv, graph_linked.graph_iv)
      ∧ ((create_edge graph_linked 2 2 5).bind fun g => visited g 2 2 false) = some [4]
      ∧ ((create_edge graph_linked 2 2 5).bind fun g => visited g 2 5 true) = some []) := by
  decide

/-- What `create_edge` does when the list it walks is empty.  For a handle `a`
of a live node with no edge yet on the side it is left from, and an edge store
of whole records, `create_edge a b` succeeds whatever `b` is (`b` is never
looked up), afterwards `follow_edges a false` invokes the visitor on `b` alone,
and for `b = a` the second record shows up in the leftward walk from `a`, as
`a`. -/
theorem create_edge_on_empty_list (g : SuccinctDynamicSequenceGraph) (a b n : Nat)
    (hlive : get_length g a = some n)
    (hempty : visited g 0 a false = some [])
    (heven : g.edge_lists_iv.length % EDGE_RECORD_SIZE = 0) :
    ∃ g', (∀ fuel, create_edge g fuel a b = some g')
      ∧ (∀ fuel, visited g' (fuel + 1) a false = some [b])
      ∧ (b = a → ∀ fuel l, visited g fuel a true = some l →
          visited g' (fuel + 1) b true = some (a :: l)) := by
  -- the record of `a`
  unfold get_length at hlive
  simp only [Option.bind_eq_some] at hlive
  obtain ⟨i, hidx, hlen⟩ := hlive
  have hlt := vec_get_lt _ _ _ hlen
  -- its list on the traversal side is empty
  have hhead : vec_get g.graph_iv
      (i + (if get_is_reverse a then GRAPH_START_EDGES_OFFSET else GRAPH_END_EDGES_OFFSET))
      = some 0 := by
    unfold visited follow_edges at hempty
    simp only [hidx, Option.some_bind, Option.map_eq_some', Option.bind_eq_some, Bool.bne_false] at hempty
    obtain ⟨r, ⟨e, he, hloop⟩, _⟩ := hempty
    rw [he]
    by_cases h0 : e = 0
    · rw [h0]
    · simp [follow_edges_loop, h0] at hloop
  obtain ⟨hr, hgr⟩ := vec_get_of_lt g.graph_iv
    (i + (if get_is_reverse a then GRAPH_END_EDGES_OFFSET else GRAPH_START_EDGES_OFFSET))
    (by simp only [GRAPH_SEQ_LENGTH_OFFSET] at hlt; split_ifs <;> simp only [GRAPH_END_EDGES_OFFSET, GRAPH_START_EDGES_OFFSET] <;> omega)
  have hwalk : ∀ fuel, follow_edges g fuel a false (fun (_ : Unit) next => (next == b, ())) ()
      = some (true, ()) := by
    intro fuel
    unfold follow_edges
    simp only [hidx, Option.some_bind, Bool.bne_false, hhead, follow_edges_loop_zero]
  have hLR : (i + (if get_is_reverse a then GRAPH_START_EDGES_OFFSET else GRAPH_END_EDGES_OFFSET))
      ≠ (i + (if get_is_reverse a then GRAPH_END_EDGES_OFFSET else GRAPH_START_EDGES_OFFSET)) := by
    cases get_is_reverse a <;> simp
  have hLlt := vec_get_lt _ _ _ hhead
  have hRlt := vec_get_lt _ _ _ hgr
  have hk1 : ((g.edge_lists_iv.length + 2) / 2 - 1) * EDGE_RECORD_SIZE = g.edge_lists_iv.length := by
    simp only [EDGE_RECORD_SIZE] at heven ⊢
    omega
  have hk2 : ((g.edge_lists_iv.length + 4) / 2 - 1) * EDGE_RECORD_SIZE
      = (g.edge_lists_iv ++ [b, 0]).length := by
    simp only [EDGE_RECORD_SIZE, List.length_append, List.length_cons, List.length_nil] at heven ⊢
    omega
  refine ⟨_, fun fuel => create_edge_adds g fuel a b i _ _ 0 hr () (hwalk fuel) hidx rfl rfl hhead hgr,
    ?_, ?_⟩
  · intro fuel
    unfold visited follow_edges
    rw [graph_iv_index_edges, hidx]
    simp only [Option.some_bind, Bool.bne_false]
    rw [vec_get_set_ne _ _ _ _ hLR.symm, vec_get_set_self _ _ _ hLlt]
    simp only [Option.some_bind]
    rw [follow_edges_loop_step _ _ _ _ _ _ _ ⟨by omega, rfl⟩, hk1]
    have h2 := vec_get_append_length g.edge_lists_iv b 0 [flip a, hr]
    simp only [List.append_assoc, List.cons_append, List.nil_append, EDGE_TRAV_OFFSET,
      EDGE_NEXT_OFFSET, Nat.add_zero, h2.1, h2.2, Option.some_bind, follow_edges_loop_zero,
      decode_edge_target]
    simp
  · intro hba fuel l hl
    subst hba
    unfold visited follow_edges at hl ⊢
    rw [graph_iv_index_edges, hidx]
    rw [hidx] at hl
    simp only [Option.some_bind, Bool.bne_true] at hl ⊢
    have hdir : (if (!get_is_reverse b) = true then GRAPH_START_EDGES_OFFSET
        else GRAPH_END_EDGES_OFFSET)
        = (if get_is_reverse b then GRAPH_END_EDGES_OFFSET else GRAPH_START_EDGES_OFFSET) := by
      cases get_is_reverse b <;> simp
    rw [hdir] at hl ⊢
    rw [hgr] at hl
    rw [vec_get_set_self _ _ _ (by rw [List.length_set]; exact hRlt)]
    simp only [Option.some_bind, Option.map_eq_some'] at hl ⊢
    obtain ⟨r, hloop, hrl⟩ := hl
    rw [follow_edges_loop_step _ _ _ _ _ _ _ ⟨by omega, rfl⟩, hk2]
    have h2 := vec_get_append_length (g.edge_lists_iv ++ [b, 0]) (flip b) hr []
    simp only [EDGE_TRAV_OFFSET, EDGE_NEXT_OFFSET, Nat.add_zero, h2.1, h2.2, Option.some_bind,
      decode_edge_target, if_true]
    have hflip : flip (flip b) = b := by
      unfold flip
      exact Nat.xor_cancel_right 1 b
    rw [hflip]
    have happ := follow_edges_loop_append g.edge_lists_iv ([b, 0] ++ [flip b, hr]) true
      (fun (acc : List Nat) h => (true, acc ++ [h])) fuel hr true [] r hloop
    have hcol := follow_edges_loop_collect _ true fuel hr [] [b] r happ
    refine ⟨(r.1, [b] ++ r.2), ?_, ?_⟩
    · simpa [List.append_assoc] using hcol
    · simp [hrl]

/-- C6: `create_edge` is not idempotent.  On the two-node graph a second
`create_edge 2 4` appends two more Edge Records (4 fields become 8) and moves
both list heads of node 1; the same happens for the self edge `create_edge 2 2`
on the one-node graph. -/
theorem create_edge_twice_differs :
    ((create_edge graph_two 2 2 4).map fun g => (g.edge_lists_iv, g.graph_iv))
        = some ([4, 0, 3, 0], [1, 2, 1, 0, 4, 2, 0, 0, 4, 4])
      ∧ ((create_edge graph_two 2 2 4).bind fun g =>
          (create_edge g 2 2 4).map fun g1 => (g1.edge_lists_iv, g1.graph_iv))
        = some ([4, 0, 3, 0, 4, 1, 3, 2], [1, 4, 3, 0, 4, 2, 0, 0, 4, 4])
      ∧ ((create_edge graph_one 2 2 2).map fun g => g.edge_lists_iv.length) = some 4
      ∧ ((create_edge graph_one 2 2 2).bind fun g =>
          (create_edge g 2 2 2).map fun g1 => g1.edge_lists_iv.length) = some 8 := by
  decide

/-! ## Claims C7 to C10: node division -/

/-- C7: on the one-node graph (ACGT), `divide_handle` of the forward handle at
offset 2 returns the two handles 2 and 4, and in the state it leaves both have
the empty sequence: their concatenation is not ACGT. -/
theorem divide_handle_loses_sequence :
    get_sequence graph_one 2 = some ['A', 'C', 'G', 'T']
      ∧ ((divide_handle graph_one 2 [2]).map fun r => (r.2, r.2.map (get_sequence r.1)))
          = some ([2, 4], [some [], some []]) := by
  decide

/-- C8: on the two-node graph, node 2 holds GTCA, so its reverse handle 5 reads
TGAC.  Dividing handle 5 at offset 1 should give T and GAC, the cut being at
stored position 4 + (4 - 1) = 7.  The new record starts at position
4 + 1 = 5, the boundary marker is set there, and the returned handles 7 and 5
read the empty sequence and C. -/
theorem divide_handle_reverse_offsets :
    get_sequence graph_two 5 = some ['T', 'G', 'A', 'C']
      ∧ ((divide_handle graph_two 5 [1]).map fun r => (r.2, r.2.map (get_sequence r.1)))
          = some ([7, 5], [some [], some ['C']])
      ∧ ((divide_handle graph_two 5 [1]).bind fun r =>
          vec_get r.1.graph_iv (2 * GRAPH_RECORD_SIZE + GRAPH_SEQ_START_OFFSET)) = some 5
      ∧ ((divide_handle graph_two 5 [1]).map fun r => r.1.boundary_bv)
          = some [1, 0, 0, 0, 1, 1, 0, 0] := by
  decide

/-- C9: on the two-node graph with the edge from 2 to 4, the rightward walk
from handle 2 visits 4.  After `divide_handle 2 [2]` the pieces are 2 and 6, and
the rightward walk from the last piece 6 visits nothing.  The same on the
one-node graph with a self edge: the last piece 4 has no rightward edge. -/
theorem divide_handle_drops_end_edges :
    (((create_edge graph_two 2 2 4).bind fun g => visited g 2 2 false) = some [4]
      ∧ ((create_edge graph_two 2 2 4).bind fun g =>
          (divide_handle g 2 [2]).bind fun r => (visited r.1 2 6 false).map fun l => (r.2, l))
          = some ([2, 6], []))
    ∧ (((create_edge graph_one 2 2 2).bind fun g => visited g 2 2 false) = some [2]
      ∧ ((create_edge graph_one 2 2 2).bind fun g =>
          (divide_handle g 2 [2]).bind fun r => (visited r.1 2 4 false).map fun l => (r.2, l))
          = some ([2, 4], [])) := by
  decide

/-- C10: on the one-node graph, after `divide_handle 2 [2]` with pieces 2 and 4
the leftward walk from piece 4 visits handle 1 (the backward record stores
`get_handle 1 true` = 0), not piece 2.  With offsets 1 and 3 the pieces are 2,
4 and 6; the rightward walk from piece 4 visits 4 itself instead of 6 and the
leftward walk from piece 6 visits nothing. -/
theorem divide_handle_links_wrong :
    ((divide_handle graph_one 2 [2]).bind fun r =>
        (visited r.1 2 2 false).bind fun l1 => (visited r.1 2 4 true).map fun l2 => (r.2, l1, l2))
        = some ([2, 4], [4], [1])
      ∧ ((divide_handle graph_one 2 [1, 3]).bind fun r =>
          (visited r.1 2 4 false).bind fun l1 => (visited r.1 2 6 true).map fun l2 => (r.2, l1, l2))
        = some ([2, 4, 6], [4], []) := by
  decide

/-! ## Identifier bounds and the index, whatever the initial bounds -/

theorem to_i64_to_u64 (x : Int) (h1 : -(2 : Int) ^ 63 ≤ x) (h2 : x < (2 : Int) ^ 63) :
    to_i64 (to_u64 x) = x := by
  unfold to_i64 to_u64
  generalize hy : (x % 2 ^ 64).toNat = y
  have hy' : (y : Int) = x % 2 ^ 64 := by
    rw [← hy]
    exact Int.toNat_of_nonneg (Int.emod_nonneg _ (by norm_num))
  split_ifs <;> omega

/-- The bounds after `create_handle`: both are maxima, so `min_id` never goes
down. -/
theorem create_handle_id_bounds (g : SuccinctDynamicSequenceGraph) (s : List Char) (id : Int)
    (r : SuccinctDynamicSequenceGraph × Option Nat) (h : create_handle_id g s id = some r) :
    min_node_id r.1 = max id g.min_id ∧ max_node_id r.1 = max id g.max_id := by
  unfold create_handle_id at h
  simp only at h
  split_ifs at h
  simp only [Option.bind_eq_some, Option.some.injEq] at h
  obtain ⟨_, _, hr⟩ := h
  subst hr
  exact ⟨rfl, rfl⟩

/-- Whatever the initial bounds of the empty graph (as long as the first
identifier `max_id + 1` is not below `min_id` and identifiers fit 63 bits),
two calls of `create_handle` leave the first record without its index entry. -/
theorem index_invariant_after_two_creates (min0 max0 : Int) (s1 s2 : List Char)
    (hmin : min0 ≤ max0 + 1) (hlo : -(2 : Int) ^ 62 ≤ max0) (hhi : max0 < (2 : Int) ^ 62) :
    ((create_handle (empty_graph min0 max0) s1).bind fun r =>
      (create_handle r.1 s2).map fun r2 => index_invariant r2.1) = some false := by
  rw [create_handle_eq _ _ (by simpa [empty_graph] using hmin)]
  simp only [Option.some_bind]
  rw [create_handle_eq _ _ (by simp)]
  simp only [Option.map_some', Option.some.injEq, empty_graph, List.nil_append]
  have hid : to_i64 (to_u64 (max0 + 1)) = max0 + 1 := to_i64_to_u64 _ (by omega) (by omega)
  unfold index_invariant node_size record_field vec_get
  simp only [List.all_eq_false, List.mem_range, List.length_cons, List.length_nil, List.nil_append,
    List.cons_append, List.length_append]
  refine ⟨0, by simp only [GRAPH_RECORD_SIZE]; omega, ?_⟩
  simp only [Nat.zero_mul, Nat.zero_add, GRAPH_ID_OFFSET, List.getElem?_cons_zero, hid]
  have : ¬ (0 ≤ max0 + 1 - (max0 + 1 + 1)) := by omega
  simp [this]

/-! ## Claims C11 to C14: relocation, the identifier index, identifier bounds -/

/-- C11: on the three-node graph, `swap_handles` of the forward handles of
nodes 1 and 2 leaves a state in which the forward handle of node 1 reads GTCA
(it read ACGT before) and the handles of nodes 2 and 3 no longer resolve to a
record; on the two-node graph the second index write is past the end of the
index, so the call has no result. -/
theorem swap_handles_changes_observations :
    (get_sequence graph_three 2, get_sequence graph_three 4, get_sequence graph_three 6)
        = (some ['A', 'C', 'G', 'T'], some ['G', 'T', 'C', 'A'], some ['T', 'T', 'G'])
      ∧ ((swap_handles graph_three 2 4).map fun g =>
          (g.id_to_graph_iv, get_sequence g 2, get_sequence g 4, get_sequence g 6))
        = some ([1, 5, 0], some ['G', 'T', 'C', 'A'], none, none)
      ∧ swap_handles graph_two 2 4 = none := by
  decide

/-- C12: from the empty graph (both identifier bounds 0), two calls of
`create_handle` leave the index `[2, 0]` with `min_id = 2`: the record of
node 1 has no index entry, so the invariant fails.  It also fails after
`swap_handles` on the three-node graph, where it held before. -/
theorem index_invariant_broken :
    ((create_handle (empty_graph 0 0) ['A', 'C', 'G', 'T']).bind fun r =>
        (create_handle r.1 ['G', 'T']).map fun r2 =>
          (record_ids r2.1, r2.1.id_to_graph_iv, r2.1.min_id, index_invariant r2.1))
        = some ([1, 2], [2, 0], 2, false)
      ∧ index_invariant graph_three = true
      ∧ (swap_handles graph_three 2 4).map index_invariant = some false := by
  decide

/-- C13: from the empty graph (both identifier bounds 0), creating the
identifiers 5 and then 7 leaves `min_node_id` at 7, not at 5, while
`max_node_id` is 7; creating 5 and then 3, an identifier below the current
minimum, has no result at all (the index write is at position `3 - 5`). -/
theorem min_node_id_not_smallest :
    ((create_handle_id (empty_graph 0 0) ['A'] 5).bind fun r =>
        (create_handle_id r.1 ['C'] 7).map fun r2 =>
          (record_ids r2.1, min_node_id r2.1, max_node_id r2.1)) = some ([5, 7], 7, 7)
      ∧ ((create_handle_id (empty_graph 0 0) ['A'] 5).map fun r => min_node_id r.1) = some 5
      ∧ ((create_handle_id (empty_graph 0 0) ['A'] 5).bind fun r =>
          create_handle_id r.1 ['C'] 3) = none := by
  decide

/-- C14: on the one-node graph, whose node has identifier 1, `create_handle`
with the identifier 1 again appends a second record that carries 1. -/
theorem create_handle_duplicates_id :
    records_with_id graph_one 1 = 1
      ∧ ((create_handle_id graph_one ['G', 'T'] 1).map fun r =>
          (record_ids r.1, records_with_id r.1 1)) = some ([1, 1], 2) := by
  decide

/-! ## Claim C15: offsets are not checked -/

/-- One iteration of the split loop succeeds whenever the boundary position
exists and the tracker points inside the record vector; it appends one Node
Record, one index entry, two Edge Records and one handle. -/
theorem divide_step_ok (first_start : Nat) (s : DivideState) (off : Nat)
    (hidx : s.g_iv_idx + GRAPH_SEQ_LENGTH_OFFSET < s.g.graph_iv.length)
    (hb : first_start + off < s.g.boundary_bv.length) :
    ∃ s1, divide_step first_start s off = some s1
      ∧ s1.g_iv_idx + GRAPH_SEQ_LENGTH_OFFSET < s1.g.graph_iv.length
      ∧ s1.g.boundary_bv.length = s.g.boundary_bv.length
      ∧ s1.g.graph_iv.length = s.g.graph_iv.length + GRAPH_RECORD_SIZE
      ∧ s1.g.edge_lists_iv.length = s.g.edge_lists_iv.length + 2 * EDGE_RECORD_SIZE
      ∧ s1.g.id_to_graph_iv.length = s.g.id_to_graph_iv.length + 1
      ∧ s1.return_val.length = s.return_val.length + 1 := by
  simp only [GRAPH_SEQ_LENGTH_OFFSET, GRAPH_RECORD_SIZE, EDGE_RECORD_SIZE] at hidx ⊢
  unfold divide_step
  simp only [GRAPH_SEQ_LENGTH_OFFSET, GRAPH_RECORD_SIZE, EDGE_RECORD_SIZE, GRAPH_END_EDGES_OFFSET,
    GRAPH_START_EDGES_OFFSET]
  rw [vec_set_eq_some _ _ _ hb]
  simp only [Option.some_bind]
  rw [vec_set_eq_some _ _ _ (by simp; omega)]
  simp only [Option.some_bind]
  rw [vec_set_eq_some _ _ _ (by simp; omega)]
  simp only [Option.some_bind]
  rw [vec_set_eq_some _ _ _ (by simp; omega)]
  simp only [Option.some_bind]
  refine ⟨_, rfl, ?_, ?_, ?_, ?_, ?_, ?_⟩
  all_goals first | (simp; done) | (simp; omega)

/-- The split loop succeeds for every offset list whose boundary positions
exist. -/
theorem divide_loop_ok (first_start : Nat) :
    ∀ (offsets : List Nat) (s : DivideState),
      s.g_iv_idx + GRAPH_SEQ_LENGTH_OFFSET < s.g.graph_iv.length →
      (∀ off ∈ offsets, first_start + off < s.g.boundary_bv.length) →
      ∃ s1, divide_loop first_start s offsets = some s1
        ∧ s1.g_iv_idx + GRAPH_SEQ_LENGTH_OFFSET < s1.g.graph_iv.length
        ∧ s1.g.graph_iv.length = s.g.graph_iv.length + GRAPH_RECORD_SIZE * offsets.length
        ∧ s1.g.edge_lists_iv.length
            = s.g.edge_lists_iv.length + 2 * EDGE_RECORD_SIZE * offsets.length
        ∧ s1.g.id_to_graph_iv.length = s.g.id_to_graph_iv.length + offsets.length
        ∧ s1.return_val.length = s.return_val.length + offsets.length := by
  intro offsets
  induction offsets with
  | nil =>
    intro s hidx _
    exact ⟨s, rfl, hidx, by simp, by simp, by simp, by simp⟩
  | cons off rest ih =>
    intro s hidx hb
    obtain ⟨s1, hs1, h1, h2, h3, h4, h5, h6⟩ :=
      divide_step_ok first_start s off hidx (hb off (List.mem_cons_self _ _))
    obtain ⟨s2, hs2, k1, k3, k4, k5, k6⟩ := ih s1 h1
      (fun o ho => by rw [h2]; exact hb o (List.mem_cons_of_mem _ ho))
    refine ⟨s2, ?_, k1, ?_, ?_, ?_, ?_⟩
    · simp only [divide_loop, hs1, Option.some_bind, hs2]
    · rw [k3, h3, List.length_cons]
      simp only [GRAPH_RECORD_SIZE]
      omega
    · rw [k4, h4, List.length_cons]
      simp only [EDGE_RECORD_SIZE]
      omega
    · rw [k5, h5, List.length_cons]
      omega
    · rw [k6, h6, List.length_cons]
      omega

/-- C15, as stated, fails: `divide_handle` rejects nothing.  On the one-node
graph (ACGT, length 4) the offset list `[0]` and the list `[2, 2]` with a
duplicate are accepted, and on the two-node graph so is the offset 4, the full
length of node 1; each call returns handles and leaves a state with more Node
Records, Edge Records and index entries than before. -/
theorem divide_handle_accepts_invalid_offsets :
    (node_size graph_one, graph_one.edge_lists_iv.length, graph_one.id_to_graph_iv.length) = (1, 0, 1)
      ∧ (node_size graph_two, graph_two.edge_lists_iv.length, graph_two.id_to_graph_iv.length)
        = (2, 0, 2)
      ∧ ((divide_handle graph_one 2 [0]).map fun r =>
        (r.2, node_size r.1, r.1.edge_lists_iv.length, r.1.id_to_graph_iv.length))
        = some ([2, 4], 2, 4, 2)
      ∧ ((divide_handle graph_one 2 [2, 2]).map fun r =>
          (r.2, node_size r.1, r.1.edge_lists_iv.length, r.1.id_to_graph_iv.length))
        = some ([2, 4, 6], 3, 8, 3)
      ∧ (get_length graph_two 2 = some 4
        ∧ ((divide_handle graph_two 2 [4]).map fun r =>
            (r.2, node_size r.1, r.1.edge_lists_iv.length, r.1.id_to_graph_iv.length))
          = some ([2, 6], 3, 4, 3)) := by
  decide

/-- C15 (amended): `divide_handle` does not check its offsets.  For every
graph state, every handle of a live node (its record, with sequence start
`first_start` and length `n`, can be read) and every offset list, whatever its
values and order, such that every position `first_start + off` exists in the
boundary vector: the call succeeds, returns one handle more than there are
offsets, and appends one Node Record, two Edge Records and one index entry per
offset. -/
theorem divide_handle_never_rejects (g : SuccinctDynamicSequenceGraph) (handle : Nat)
    (offsets : List Nat) (i first_start n : Nat)
    (hidx : graph_iv_index g handle = some i)
    (hstart : vec_get g.graph_iv (i + GRAPH_SEQ_START_OFFSET) = some first_start)
    (hlen : vec_get g.graph_iv (i + GRAPH_SEQ_LENGTH_OFFSET) = some n)
    (hb : ∀ off ∈ offsets, first_start + off < g.boundary_bv.length) :
    ∃ g1 handles, divide_handle g handle offsets = some (g1, handles)
      ∧ handles.length = offsets.length + 1
      ∧ node_size g1 = node_size g + offsets.length
      ∧ g1.graph_iv.length = g.graph_iv.length + GRAPH_RECORD_SIZE * offsets.length
      ∧ g1.edge_lists_iv.length = g.edge_lists_iv.length + 2 * EDGE_RECORD_SIZE * offsets.length
      ∧ g1.id_to_graph_iv.length = g.id_to_graph_iv.length + offsets.length := by
  have hfw : graph_iv_index g (forward handle) = some i := by
    unfold forward
    split_ifs
    · rw [graph_iv_index_flip, hidx]
    · exact hidx
  have hlt := vec_get_lt _ _ _ hlen
  obtain ⟨e, he⟩ := vec_get_of_lt g.graph_iv (i + GRAPH_END_EDGES_OFFSET)
    (by simp only [GRAPH_SEQ_LENGTH_OFFSET, GRAPH_END_EDGES_OFFSET] at hlt ⊢; omega)
  obtain ⟨s1, hs1, k1, k3, k4, k5, k6⟩ := divide_loop_ok first_start offsets
    { g := g, return_val := [forward handle], g_iv_idx := i, last_offset := 0,
      prev_id := get_id (forward handle) } hlt hb
  simp only [List.length_singleton] at k3 k4 k5 k6
  have hw1 : s1.g_iv_idx + GRAPH_SEQ_LENGTH_OFFSET < s1.g.graph_iv.length := k1
  have hw2 : s1.g_iv_idx + GRAPH_END_EDGES_OFFSET
      < (s1.g.graph_iv.set (s1.g_iv_idx + GRAPH_SEQ_LENGTH_OFFSET)
          (sub64 n s1.last_offset)).length := by
    rw [List.length_set]
    simp only [GRAPH_SEQ_LENGTH_OFFSET, GRAPH_END_EDGES_OFFSET] at hw1 ⊢
    omega
  refine ⟨{ s1.g with graph_iv := (s1.g.graph_iv.set (s1.g_iv_idx + GRAPH_SEQ_LENGTH_OFFSET)
      (sub64 n s1.last_offset)).set (s1.g_iv_idx + GRAPH_END_EDGES_OFFSET) e },
    if get_is_reverse handle then s1.return_val.reverse.map flip else s1.return_val,
    ?_, ?_, ?_, ?_, ?_, ?_⟩
  · unfold divide_handle get_length
    simp only [hidx, hfw, hlen, hstart, he, Option.some_bind, hs1, vec_set_eq_some _ _ _ hw1,
      vec_set_eq_some _ _ _ hw2]
  · split_ifs
    · simp only [List.length_map, List.length_reverse]
      omega
    · omega
  · simp only [node_size, List.length_set, k3, GRAPH_RECORD_SIZE]
    omega
  · simp only [List.length_set, k3]
  · exact k4
  · exact k5

/-- Witness for C15 (amended): the forward handle of the one-node graph and
the offset list `[0, 2, 2]`, which holds a zero and a duplicate. -/
theorem divide_handle_never_rejects_witness :
    graph_iv_index graph_one 2 = some 0
      ∧ ∃ g1 handles, divide_handle graph_one 2 [0, 2, 2] = some (g1, handles)
        ∧ handles.length = [0, 2, 2].length + 1
        ∧ node_size g1 = node_size graph_one + [0, 2, 2].length
        ∧ g1.graph_iv.length = graph_one.graph_iv.length + GRAPH_RECORD_SIZE * [0, 2, 2].length
        ∧ g1.edge_lists_iv.length
            = graph_one.edge_lists_iv.length + 2 * EDGE_RECORD_SIZE * [0, 2, 2].length
        ∧ g1.id_to_graph_iv.length = graph_one.id_to_graph_iv.length + [0, 2, 2].length :=
  ⟨by decide, divide_handle_never_rejects graph_one 2 [0, 2, 2] 0 0 4 (by decide) (by decide)
    (by decide) (by decide)⟩

/-! ## Claim C16: orientation applied in place -/

theorem decode_complement_code (x : Nat) :
    decode_nucleotide (complement_encoded_nucleotide (encode_nucleotide (decode_nucleotide x)))
      = decode_nucleotide (complement_encoded_nucleotide x) := by
  rcases x with _ | _ | _ | _ | x
  · decide
  · decide
  · decide
  · decide
  · rcases x with _ | x
    · decide
    · have h1 : decode_nucleotide (x + 1 + 1 + 1 + 1 + 1) = 'N' := rfl
      have h2 : complement_encoded_nucleotide (x + 1 + 1 + 1 + 1 + 1) = 4 := rfl
      rw [h1, h2]
      decide

/-- What a sequence that `decode_interval` can read is. -/
theorem decode_interval_some (v : List Nat) (start n : Nat) (seq : List Char)
    (h : decode_interval v start n = some seq) :
    (0 < n → start + n ≤ v.length) ∧ seq = ((v.drop start).take n).map decode_nucleotide := by
  cases n with
  | zero =>
    simp only [decode_interval, Option.some.injEq] at h
    subst h
    simp
  | succ m =>
    have hle : start + (m + 1) ≤ v.length := by
      simp only [decode_interval, Option.bind_eq_some] at h
      obtain ⟨_, _, c, hc, _⟩ := h
      have := vec_get_lt _ _ _ hc
      omega
    refine ⟨fun _ => hle, ?_⟩
    rw [decode_interval_eq v start (m + 1) hle] at h
    exact (Option.some.inj h).symm

/-- The loop of `apply_orientation` after `m` iterations: the first `m` and
the last `m` codes of the interval hold the complements of their mirror
images, every other position holds what it held. -/
theorem apply_orientation_loop_spec (start len : Nat) (v0 : List Nat)
    (hin : 0 < len → start + len ≤ v0.length) :
    ∀ m, 2 * m ≤ len →
      ∃ v, apply_orientation_loop start len v0 m = some v ∧ v.length = v0.length
        ∧ ∀ p, v[p]? =
          if (start ≤ p ∧ p < start + m) ∨ (start + len - m ≤ p ∧ p < start + len) then
            (v0[2 * start + len - 1 - p]?).map complement_encoded_nucleotide
          else v0[p]? := by
  intro m
  induction m with
  | zero =>
    intro _
    refine ⟨v0, rfl, rfl, fun p => ?_⟩
    rw [if_neg (by omega)]
  | succ m ih =>
    intro hm
    obtain ⟨v, hv, hlen, hspec⟩ := ih (by omega)
    have hin' := hin (by omega)
    have hk : start + m < v0.length := by omega
    have hj : start + len - m - 1 < v0.length := by omega
    obtain ⟨a, ha⟩ : ∃ a, v0[start + m]? = some a := ⟨_, List.getElem?_eq_getElem hk⟩
    obtain ⟨b, hb⟩ : ∃ b, v0[start + len - m - 1]? = some b := ⟨_, List.getElem?_eq_getElem hj⟩
    have hvk : vec_get v (start + m) = some a := by
      unfold vec_get
      rw [hspec, if_neg (by omega), ha]
    have hvj : vec_get v (start + len - m - 1) = some b := by
      unfold vec_get
      rw [hspec, if_neg (by omega), hb]
    refine ⟨(v.set (start + m) (complement_encoded_nucleotide b)).set (start + len - m - 1)
      (complement_encoded_nucleotide a), ?_, ?_, fun p => ?_⟩
    · simp only [apply_orientation_loop, hv, Option.some_bind, hvk, hvj]
      rw [vec_set_eq_some _ _ _ (by omega)]
      simp only [Option.some_bind]
      rw [vec_set_eq_some _ _ _ (by rw [List.length_set]; omega)]
    · simp only [List.length_set, hlen]
    · rw [List.getElem?_set, List.getElem?_set, hspec]
      simp only [List.length_set, hlen]
      by_cases hpj : start + len - m - 1 = p
      · rw [if_pos hpj, if_pos hj, if_pos (by omega)]
        have : 2 * start + len - 1 - p = start + m := by omega
        rw [this, ha]
        rfl
      · rw [if_neg hpj]
        by_cases hpk : start + m = p
        · rw [if_pos hpk, if_pos hk, if_pos (by omega)]
          have : 2 * start + len - 1 - p = start + len - m - 1 := by omega
          rw [this, hb]
          rfl
        · rw [if_neg hpk]
          by_cases hc : (start ≤ p ∧ p < start + m) ∨ (start + len - m ≤ p ∧ p < start + len)
          · rw [if_pos hc, if_pos (by omega)]
          · rw [if_neg hc, if_neg (by omega)]

/-- The sequence store that `apply_orientation` leaves: inside the interval
every position holds the complement of its mirror image, outside it nothing
changes. -/
theorem apply_orientation_store (start len : Nat) (v0 : List Nat)
    (hin : 0 < len → start + len ≤ v0.length) :
    ∃ v1, ((apply_orientation_loop start len v0 (len / 2)).bind fun v =>
        if len % 2 ≠ 0 then
          (vec_get v (start + len / 2)).bind fun c =>
            vec_set v (start + len / 2) (complement_encoded_nucleotide c)
        else some v) = some v1
      ∧ v1.length = v0.length
      ∧ ∀ p, v1[p]? =
          if start ≤ p ∧ p < start + len then
            (v0[2 * start + len - 1 - p]?).map complement_encoded_nucleotide
          else v0[p]? := by
  obtain ⟨v, hv, hlen, hspec⟩ := apply_orientation_loop_spec start len v0 hin (len / 2) (by omega)
  rw [hv]
  simp only [Option.some_bind]
  by_cases hodd : len % 2 ≠ 0
  · rw [if_pos hodd]
    have hin' := hin (by omega)
    have hmid : start + len / 2 < v0.length := by omega
    obtain ⟨c, hc⟩ : ∃ c, v0[start + len / 2]? = some c := ⟨_, List.getElem?_eq_getElem hmid⟩
    have hvm : vec_get v (start + len / 2) = some c := by
      unfold vec_get
      rw [hspec, if_neg (by omega), hc]
    refine ⟨v.set (start + len / 2) (complement_encoded_nucleotide c), ?_, ?_, fun p => ?_⟩
    · rw [hvm]
      simp only [Option.some_bind]
      rw [vec_set_eq_some _ _ _ (by omega)]
    · simp only [List.length_set, hlen]
    · rw [List.getElem?_set, hspec]
      simp only [hlen]
      by_cases hpm : start + len / 2 = p
      · rw [if_pos hpm, if_pos hmid, if_pos (by omega)]
        have : 2 * start + len - 1 - p = start + len / 2 := by omega
        rw [this, hc]
        rfl
      · rw [if_neg hpm]
        by_cases hc2 : start ≤ p ∧ p < start + len
        · rw [if_pos hc2, if_pos (by omega)]
        · rw [if_neg hc2, if_neg (by omega)]
  · rw [if_neg hodd]
    refine ⟨v, rfl, hlen, fun p => ?_⟩
    rw [hspec]
    by_cases hc2 : start ≤ p ∧ p < start + len
    · rw [if_pos hc2, if_pos (by omega)]
    · rw [if_neg hc2, if_neg (by omega)]

/-- Decoding the mirrored, complemented interval gives the reverse complement
of what the interval decoded to before. -/
theorem decode_mirrored (start len : Nat) (v0 v1 : List Nat)
    (hin : 0 < len → start + len ≤ v0.length)
    (hspec : ∀ p, v1[p]? =
      if start ≤ p ∧ p < start + len then
        (v0[2 * start + len - 1 - p]?).map complement_encoded_nucleotide
      else v0[p]?) :
    ((v1.drop start).take len).map decode_nucleotide
      = reverse_complement (((v0.drop start).take len).map decode_nucleotide) := by
  apply List.ext_getElem?
  intro i
  unfold reverse_complement
  by_cases hi : i < len
  · have hin' := hin (by omega)
    have hl : ((List.map (fun c => decode_nucleotide (complement_encoded_nucleotide
        (encode_nucleotide c))) (List.map decode_nucleotide (List.take len (List.drop start v0))))).length
        = len := by
      simp only [List.length_map, List.length_take, List.length_drop]
      omega
    rw [List.getElem?_reverse (by rw [hl]; exact hi), hl]
    simp only [List.getElem?_map, List.getElem?_take, List.getElem?_drop, hi, if_true]
    rw [if_pos (by omega), hspec, if_pos (by omega)]
    have : 2 * start + len - 1 - (start + i) = start + (len - 1 - i) := by omega
    rw [this]
    cases v0[start + (len - 1 - i)]? with
    | none => rfl
    | some x => simp [decode_complement_code]
  · have h1 : (List.map decode_nucleotide (List.take len (List.drop start v1)))[i]? = none := by
      apply List.getElem?_eq_none
      simp only [List.length_map, List.length_take]
      omega
    have h2 : ((List.map (fun c => decode_nucleotide (complement_encoded_nucleotide
        (encode_nucleotide c))) (List.map decode_nucleotide
          (List.take len (List.drop start v0)))).reverse)[i]? = none := by
      apply List.getElem?_eq_none
      simp only [List.length_reverse, List.length_map, List.length_take]
      omega
    rw [h1, h2]

theorem graph_iv_index_seq (g : SuccinctDynamicSequenceGraph) (seq : List Nat) (h : Nat) :
    graph_iv_index { g with seq_iv := seq } h = graph_iv_index g h :=
  graph_iv_index_congr _ g h rfl rfl

/-- C16: for every graph state and handle `h`: if `h` is forward,
`apply_orientation` returns `h` and the state as it was; if `h` is a reverse
handle whose sequence can be read (a handle of a live node), it returns
`flip h`, and `get_sequence` of the returned handle in the state it leaves is
`get_sequence h` of the state before, whatever the length of the sequence. -/
theorem apply_orientation_keeps_sequence (g : SuccinctDynamicSequenceGraph) (h : Nat) :
    (get_is_reverse h = false → apply_orientation g h = some (g, h))
      ∧ (get_is_reverse h = true → ∀ seq, get_sequence g h = some seq →
          ∃ g1, apply_orientation g h = some (g1, flip h)
            ∧ get_sequence g1 (flip h) = some seq) := by
  constructor
  · intro hfw
    unfold apply_orientation
    rw [hfw]
    rfl
  · intro hrev seq hlive
    unfold get_sequence at hlive
    simp only [Option.bind_eq_some, hrev, if_true, Option.some.injEq] at hlive
    obtain ⟨i, hi, start, hstart, len, hlen, s0, hs0, hseq⟩ := hlive
    obtain ⟨hin, hs0eq⟩ := decode_interval_some _ _ _ _ hs0
    obtain ⟨v1, hv1, hv1len, hspec⟩ := apply_orientation_store start len g.seq_iv hin
    refine ⟨{ g with seq_iv := v1 }, ?_, ?_⟩
    · unfold apply_orientation
      simp only [Option.bind_eq_some] at hv1
      obtain ⟨v, hloop, hmid⟩ := hv1
      simp only [hrev, if_true, hi, hstart, hlen, Option.some_bind, hloop, hmid]
    · unfold get_sequence
      rw [graph_iv_index_seq, graph_iv_index_flip, hi]
      simp only [Option.some_bind, hstart, hlen]
      have hd : decode_interval v1 start len
          = some (((v1.drop start).take len).map decode_nucleotide) := by
        cases len with
        | zero => rfl
        | succ n =>
          exact decode_interval_eq v1 start (n + 1) (by rw [hv1len]; exact hin (by omega))
      rw [hd, get_is_reverse_flip, hrev]
      simp only [Option.some_bind, Bool.not_true, Bool.false_eq_true, if_false, Option.some.injEq]
      rw [decode_mirrored start len g.seq_iv v1 hin hspec, ← hs0eq, hseq]

/-- Witness for C16: the forward handle 6 and the reverse handle 7 of node 3
of the three-node graph, whose sequence TTG has odd length. -/
theorem apply_orientation_keeps_sequence_witness :
    (get_is_reverse 6 = false ∧ apply_orientation graph_three 6 = some (graph_three, 6))
      ∧ (get_is_reverse 7 = true ∧ get_sequence graph_three 7 = some ['C', 'A', 'A']
        ∧ ∃ g1, apply_orientation graph_three 7 = some (g1, flip 7)
          ∧ get_sequence g1 (flip 7) = some ['C', 'A', 'A']) :=
  ⟨⟨by decide, (apply_orientation_keeps_sequence graph_three 6).1 (by decide)⟩,
    ⟨by decide, by decide,
      (apply_orientation_keeps_sequence graph_three 7).2 (by decide) ['C', 'A', 'A'] (by decide)⟩⟩

/-! ## Early stop of the list walk: lemmas -/

/-- The loop of `for_each_handle` is a fold of the visitor over the record
numbers below `node_size`, each record giving the forward handle of its
identifier field. -/
theorem for_each_handle_loop_eq {α : Type} (g : SuccinctDynamicSequenceGraph)
    (iteratee : α → handle_t → Bool × α) (acc : α) :
    ∀ n, n ≤ node_size g →
      for_each_handle_loop g iteratee n acc
        = some ((List.range n).foldl
            (fun a k => (iteratee a
              (get_handle (to_i64 ((record_field g k GRAPH_ID_OFFSET).getD 0)) false)).2) acc) := by
  intro n
  induction n with
  | zero => intro _; rfl
  | succ n ih =>
    intro hn
    have hlt : n * GRAPH_RECORD_SIZE + GRAPH_ID_OFFSET < g.graph_iv.length := by
      unfold node_size at hn
      simp only [GRAPH_RECORD_SIZE, GRAPH_ID_OFFSET] at hn ⊢
      omega
    obtain ⟨x, hx⟩ := vec_get_of_lt _ _ hlt
    simp only [for_each_handle_loop, ih (by omega), Option.some_bind, hx, List.range_succ,
      List.foldl_append, List.foldl_cons, List.foldl_nil, record_field, Option.getD_some]

/-- Folding a logged visitor over handles: the log grows by one entry per
handle, in order. -/
theorem foldl_logged {α : Type} (iteratee : α → handle_t → Bool × α) (f : Nat → Nat) :
    ∀ (ks : List Nat) (a : α) (log0 : List (Nat × Bool)),
      (((ks.foldl (fun s k => (logged iteratee s (f k)).2) (a, log0)).2).map Prod.fst)
          = log0.map Prod.fst ++ ks.map f
        ∧ (ks.foldl (fun s k => (logged iteratee s (f k)).2) (a, log0)).1
          = ks.foldl (fun s k => (iteratee s (f k)).2) a := by
  intro ks
  induction ks with
  | nil => intro a log0; simp
  | cons k ks ih =>
    intro a log0
    obtain ⟨h1, h2⟩ := ih (iteratee a (f k)).2 (log0 ++ [(f k, (iteratee a (f k)).1)])
    have hstep : (logged iteratee (a, log0) (f k)).2
        = ((iteratee a (f k)).2, log0 ++ [(f k, (iteratee a (f k)).1)]) := rfl
    simp only [List.foldl_cons, List.map_cons, hstep]
    exact ⟨by rw [h1]; simp, h2⟩

/-- C18: for every graph state and every visitor (with any state of its own),
run with a log of its invocations, sequential `for_each_handle` returns, and
the handles it invoked the visitor on are, in order, the forward handles
`get_handle id false` of the identifiers of the Node Records in storage order,
one invocation per record: their number is `node_size`. -/
theorem for_each_handle_visits_records {α : Type} (g : SuccinctDynamicSequenceGraph)
    (iteratee : α → handle_t → Bool × α) (acc : α) :
    ∃ (acc1 : α) (log : List (Nat × Bool)),
      for_each_handle g (logged iteratee) false (acc, []) = some (acc1, log)
        ∧ for_each_handle g iteratee false acc = some acc1
        ∧ log.map Prod.fst = (record_ids g).map (fun id => get_handle id false)
        ∧ log.length = node_size g := by
  have hl := for_each_handle_loop_eq g (logged iteratee) (acc, []) (node_size g) (Nat.le_refl _)
  have hp := for_each_handle_loop_eq g iteratee acc (node_size g) (Nat.le_refl _)
  obtain ⟨h1, h2⟩ := foldl_logged iteratee
    (fun k => get_handle (to_i64 ((record_field g k GRAPH_ID_OFFSET).getD 0)) false)
    (List.range (node_size g)) acc []
  generalize List.foldl
    (fun s k => (logged iteratee s
      (get_handle (to_i64 ((record_field g k GRAPH_ID_OFFSET).getD 0)) false)).2)
    (acc, []) (List.range (node_size g)) = S at hl h1 h2
  refine ⟨S.1, S.2, ?_, ?_, ?_, ?_⟩
  · unfold for_each_handle
    simp only [Bool.false_eq_true, if_false]
    exact hl
  · unfold for_each_handle
    simp only [Bool.false_eq_true, if_false]
    rw [h2]
    exact hp
  · rw [h1]
    simp [record_ids, List.map_map, Function.comp_def]
  · have := congrArg List.length h1
    simpa using this

/-! ## Claims C19 and C20: self edges, sequence intervals -/

/-- C19: on the one-node graph, which has no edge, `create_edge 2 (flip 2)`
appends two Edge Records (four fields), one in each list of node 1: the guard
against adding a reversing self edge twice compares two positions that are
both computed from `left` and never coincide.  On the two-node graph
`create_edge 2 4` appends two records as well, both in the lists of node 1;
the list heads of node 2 stay 0. -/
theorem create_edge_self_edge_twice :
    flip 2 = 3 ∧ visited graph_one 1 2 false = some []
      ∧ ((create_edge graph_one 1 2 3).map fun g =>
          (g.edge_lists_iv, record_field g 0 GRAPH_START_EDGES_OFFSET,
            record_field g 0 GRAPH_END_EDGES_OFFSET)) = some ([3, 0, 3, 0], some 2, some 1)
      ∧ ((create_edge graph_two 1 2 4).map fun g =>
          (g.edge_lists_iv, record_field g 0 GRAPH_START_EDGES_OFFSET,
            record_field g 0 GRAPH_END_EDGES_OFFSET, record_field g 1 GRAPH_START_EDGES_OFFSET,
            record_field g 1 GRAPH_END_EDGES_OFFSET))
        = some ([4, 0, 3, 0], some 2, some 1, some 0, some 0) := by
  decide

/-- C20: from the empty graph (both identifier bounds 0), `create_handle` of
ACGT gives the one-node graph, where the three interval properties hold.
After `divide_handle` of its forward handle at offsets 1 and 3 the first
record claims the interval from 2 of length 4 in a store of 4 codes, and no
marker is set at its start; after dividing at offset 1 alone the first record
starts at 2, where no marker is set. -/
theorem divide_handle_breaks_intervals :
    (create_handle (empty_graph 0 0) ['A', 'C', 'G', 'T']).map (fun r => r.1) = some graph_one
      ∧ (intervals_in_store graph_one, intervals_disjoint graph_one, boundaries_marked graph_one)
          = (true, true, true)
      ∧ ((divide_handle graph_one 2 [1, 3]).map fun r =>
          (record_interval r.1 0, r.1.seq_iv.length, intervals_in_store r.1, boundaries_marked r.1))
        = some ((2, 4), 4, false, false)
      ∧ ((divide_handle graph_one 2 [1]).map fun r =>
          (record_interval r.1 0, r.1.boundary_bv, boundaries_marked r.1))
        = some ((2, 0), [1, 1, 0, 0], false) := by
  decide

/-! ## Claims C21 and C22: shape of the edge lists, reciprocity under division -/

/-- C21: on the one-node graph (no edges, both properties hold),
`divide_handle` of the forward handle at offset 1 leaves two Edge Records and,
in the start-edge field of the new record, the head 3: the head is out of
range.  The `next` fields stay below their record's index, but the leftward
walk from the new piece 4 reads past the end of the edge store and has no
result, whatever the fuel. -/
theorem divide_handle_head_out_of_range :
    (edge_next_below_index graph_one, edge_heads_in_range graph_one) = (true, true)
      ∧ ((divide_handle graph_one 2 [1]).map fun r =>
          (r.2, edge_count r.1, record_field r.1 1 GRAPH_START_EDGES_OFFSET,
            edge_next_below_index r.1, edge_heads_in_range r.1))
        = some ([2, 4], 2, some 3, true, false)
      ∧ ∀ fuel, ((divide_handle graph_one 2 [1]).bind fun r => visited r.1 fuel 4 true) = none := by
  refine ⟨by decide, by decide, fun fuel => ?_⟩
  have hd : divide_handle graph_one 2 [1] = some
      ({ graph_iv := [1, 0, 1, 2, 0, 2, 3, 0, 1, 0], seq_iv := [0, 1, 2, 3],
         boundary_bv := [1, 1, 0, 0], edge_lists_iv := [4, 0, 0, 0], id_to_graph_iv := [1, 2],
         max_id := 2, min_id := 1 }, [2, 4]) := by decide
  rw [hd]
  cases fuel with
  | zero => decide
  | succ n =>
    simp only [Option.some_bind, visited, follow_edges]
    have hi : graph_iv_index
        { graph_iv := [1, 0, 1, 2, 0, 2, 3, 0, 1, 0], seq_iv := [0, 1, 2, 3],
          boundary_bv := [1, 1, 0, 0], edge_lists_iv := [4, 0, 0, 0], id_to_graph_iv := [1, 2],
          max_id := 2, min_id := 1 } 4 = some 5 := by decide
    have hr : get_is_reverse 4 = false := by decide
    rw [hi, hr]
    simp [vec_get, follow_edges_loop, EDGE_RECORD_SIZE]

/-- C22: on the linked two-node graph the rightward walk from handle 2 visits 4
and the leftward walk from 4 visits 2.  After `divide_handle 2 [2]` the pieces
are 2 and 6; the leftward walk from 4 still visits 2 and not the last piece 6,
while the rightward walk from 2 visits 6 and no longer 4, and the rightward
walk from the last piece 6 visits nothing. -/
theorem divide_handle_breaks_reciprocity :
    (visited graph_linked 2 2 false, visited graph_linked 2 4 true) = (some [4], some [2])
      ∧ ((divide_handle graph_linked 2 [2]).map fun r =>
          (r.2, visited r.1 3 4 true, visited r.1 3 2 false, visited r.1 3 6 false))
        = some ([2, 6], some [2], some [6], some []) := by
  decide

end dankgraph

namespace odgi

/-! ## Claim C23: bin sizing -/

theorem ceil_div_covers (len w : Nat) (hw : 0 < w) :
    len ≤ (len / w + (if len % w ≠ 0 then 1 else 0)) * w := by
  have h1 := Nat.div_add_mod len w
  have h2 := Nat.mod_lt len hw
  have h3 : w * (len / w) = len / w * w := Nat.mul_comm _ _
  split_ifs with h
  · rw [Nat.add_mul, Nat.one_mul]
    omega
  · rw [Nat.add_zero]
    have : len % w = 0 := by simpa using h
    omega

/-- Where the normalisation does work: when a width is given, or a number of
bins that does not exceed the length, the width that results is positive and,
if only one of the two was given, the bins cover the graph. -/
theorem bin_sizing_covers (len num_bins bin_width : Nat)
    (h : 0 < bin_width ∨ (0 < num_bins ∧ num_bins ≤ len)) :
    ∃ n w, bin_sizing len num_bins bin_width = some (n, w) ∧ 0 < w
      ∧ ((num_bins = 0 ∨ bin_width = 0) → len ≤ n * w) := by
  unfold bin_sizing
  by_cases hn : num_bins = 0
  · have hw : 0 < bin_width := by omega
    rw [if_pos hn, if_neg (by omega)]
    exact ⟨_, _, rfl, hw, fun _ => ceil_div_covers len bin_width hw⟩
  · rw [if_neg hn]
    by_cases hw : bin_width = 0
    · have hle : num_bins ≤ len := by omega
      have hpos : 0 < len / num_bins := Nat.div_pos hle (by omega)
      rw [if_pos hw, if_neg (by omega)]
      exact ⟨_, _, rfl, hpos, fun _ => ceil_div_covers len (len / num_bins) hpos⟩
    · rw [if_neg hw]
      exact ⟨_, _, rfl, by omega, fun hc => by omega⟩

/-- C23: for a graph of total length 3 with `num_bins` 5 and no `bin_width`,
the check of `main_bin` passes and the normalisation sets `bin_width` to
`3 / 5 = 0` and then divides by it; the same for the empty graph.  With
`num_bins` 3 on length 10 it gives 4 bins of width 3. -/
theorem bin_sizing_divides_by_zero :
    main_bin_accepts 5 0 = true ∧ bin_sizing 3 5 0 = none ∧ bin_sizing 0 5 0 = none
      ∧ bin_sizing 10 3 0 = some (4, 3) := by
  decide

/-! ## Claim C25: path name splitting -/

/-- Searching a one-character delimiter that occurs: the position found splits
the string around that character. -/
theorem find_from_char (c : Char) :
    ∀ (s : List Char) (pos : Nat), c ∈ s →
      ∃ k, find_from [c] s pos = pos + k ∧ k < s.length ∧ s.take k ++ c :: s.drop (k + 1) = s := by
  intro s
  induction s with
  | nil => intro pos h; simp at h
  | cons x t ih =>
    intro pos h
    by_cases hx : c = x
    · subst hx
      exact ⟨0, by simp [find_from, List.isPrefixOf], by simp, by simp⟩
    · have ht : c ∈ t := by
        rcases List.mem_cons.mp h with h1 | h1
        · exact absurd h1 hx
        · exact h1
      obtain ⟨k, hk, hlt, hsplit⟩ := ih (pos + 1) ht
      refine ⟨k + 1, ?_, by simp; omega, by simp [hsplit]⟩
      have hbeq : (c == x) = false := by simpa using hx
      simp only [find_from, List.isPrefixOf, hbeq, Bool.false_and, Bool.false_eq_true,
        if_false, hk]
      omega

/-- Where the splitting does work: for a one-character delimiter that occurs
in the name, prefix, delimiter and suffix put together give the name back. -/
theorem path_split_one_character (c : Char) (path_name : List Char) (hc : c ∈ path_name)
    (hlen : path_name.length < 2 ^ 64) :
    ∃ p q, get_path_prefix [c] false path_name = some p
      ∧ get_path_suffix [c] false path_name = some q ∧ p ++ [c] ++ q = path_name := by
  obtain ⟨k, hk, hlt, hsplit⟩ := find_from_char c path_name 0 hc
  rw [Nat.zero_add] at hk
  refine ⟨path_name.take k, path_name.drop (k + 1), ?_, ?_, by simpa using hsplit⟩
  · simp [ get_path_prefix, string_substr, string_find, hk]
  · have hmod : (k + 1) % 2 ^ 64 = k + 1 := Nat.mod_eq_of_lt (by omega)
    simp only [get_path_suffix, string_substr, string_find, hk, hmod, List.isEmpty_cons,
      Bool.or_self, Bool.false_eq_true, if_false]
    rw [if_neg (by omega), List.take_of_length_le (by simp [npos]; omega)]

/-- When `aggregate_delim` is set or the delimiter is empty, both functions
return NA. -/
theorem path_split_not_available (path_delim : List Char) (aggregate_delim : Bool)
    (path_name : List Char) (h : aggregate_delim = true ∨ path_delim = []) :
    get_path_prefix path_delim aggregate_delim path_name = some ['N', 'A']
      ∧ get_path_suffix path_delim aggregate_delim path_name = some ['N', 'A'] := by
  unfold get_path_prefix get_path_suffix
  rcases h with h | h <;> simp [h]

/-- C25: with the two-character delimiter `::` the name `a::b` is split into
the prefix `a` and the suffix `:b`, which starts inside the delimiter, so
prefix, delimiter and suffix put together give `a:::b`.  With the
one-character delimiter `#` the name `a#b#c` is split into `a` and `b#c`. -/
theorem path_suffix_keeps_delimiter_tail :
    get_path_prefix [':', ':'] false ['a', ':', ':', 'b'] = some ['a']
      ∧ get_path_suffix [':', ':'] false ['a', ':', ':', 'b'] = some [':', 'b']
      ∧ ['a'] ++ [':', ':'] ++ [':', 'b'] ≠ ['a', ':', ':', 'b']
      ∧ get_path_prefix ['#'] false ['a', '#', 'b', '#', 'c'] = some ['a']
      ∧ get_path_suffix ['#'] false ['a', '#', 'b', '#', 'c'] = some ['b', '#', 'c'] := by
  decide

/-! ## Claim C24: the gap link filter -/

/-- On a sorted list, the lower bound of `a` is before the lower bound of `b`
exactly when some element lies in `[a, b)`. -/
theorem lower_bound_lt_iff (l : List Nat) (hs : l.Sorted (· ≤ ·)) (a b : Nat) :
    lower_bound l a < lower_bound l b ↔ ∃ x ∈ l, a ≤ x ∧ x < b := by
  induction l with
  | nil => simp [lower_bound]
  | cons x xs ih =>
    have hxs : xs.Sorted (· ≤ ·) := hs.of_cons
    have hle : ∀ y ∈ xs, x ≤ y := fun y hy => List.rel_of_sorted_cons hs y hy
    simp only [lower_bound, List.mem_cons, exists_eq_or_imp]
    by_cases hxa : x < a
    · by_cases hxb : x < b
      · rw [if_pos hxa, if_pos hxb, Nat.add_lt_add_iff_right, ih hxs]
        constructor
        · intro h
          exact Or.inr h
        · rintro (⟨h1, _⟩ | h)
          · omega
          · exact h
      · rw [if_pos hxa, if_neg hxb]
        constructor
        · intro h
          omega
        · rintro (⟨h1, h2⟩ | ⟨y, _, h1, h2⟩) <;> omega
    · by_cases hxb : x < b
      · rw [if_neg hxa, if_pos hxb]
        constructor
        · intro _
          exact Or.inl ⟨by omega, hxb⟩
        · intro _
          omega
      · rw [if_neg hxa, if_neg hxb]
        constructor
        · intro h
          omega
        · rintro (⟨_, h2⟩ | ⟨y, hy, _, h2⟩)
          · omega
          · have := hle y hy
            omega

/-- One iteration of the loop, in terms of `link_passes`. -/
theorem drop_gap_links_loop_succ (bin_ids : List Nat) (links : List (Nat × Nat)) (i : Nat)
    (st : List (Nat × Nat) × Nat) (link : Nat × Nat)
    (hst : drop_gap_links_loop bin_ids links i = some st) (hlink : st.1[i]? = some link) :
    drop_gap_links_loop bin_ids links (i + 1)
      = if link_passes bin_ids link = true then keep_link st link else some st := by
  simp only [drop_gap_links_loop, hst, Option.some_bind, hlink, link_passes]
  by_cases h0 : link.1 = 0 ∨ link.2 = 0
  · simp [h0]
  · by_cases h1 : link.2 < link.1
    · simp [h0, h1]
    · simp [h0, h1]

/-- The loop after `i` iterations: the first `fill_pos` entries of the vector
are the links among the first `i` that pass, in order; the entries from `i` on
are untouched. -/
theorem drop_gap_links_loop_spec (bin_ids : List Nat) (links : List (Nat × Nat)) :
    ∀ i, i ≤ links.length →
      ∃ L fp, drop_gap_links_loop bin_ids links i = some (L, fp)
        ∧ L.length = links.length ∧ fp ≤ i
        ∧ L.take fp = (links.take i).filter (link_passes bin_ids)
        ∧ L.drop i = links.drop i := by
  intro i
  induction i with
  | zero =>
    intro _
    exact ⟨links, 0, rfl, rfl, Nat.le_refl _, by simp, by simp⟩
  | succ i ih =>
    intro hi
    obtain ⟨L, fp, hloop, hlen, hfp, htake, hdrop⟩ := ih (by omega)
    have hil : i < links.length := by omega
    have hLi : L[i]? = some links[i] := by
      have h1 : (L.drop i)[0]? = (links.drop i)[0]? := by rw [hdrop]
      simpa [List.getElem?_drop, List.getElem?_eq_getElem hil] using h1
    have htk : links.take (i + 1) = links.take i ++ [links[i]] := by
      rw [List.take_succ, List.getElem?_eq_getElem hil]
      rfl
    have hdr : L.drop (i + 1) = links.drop (i + 1) := by
      rw [← List.drop_drop 1 i L, ← List.drop_drop 1 i links, hdrop]
    rw [drop_gap_links_loop_succ bin_ids links i (L, fp) links[i] hloop hLi]
    by_cases hp : link_passes bin_ids links[i] = true
    · rw [if_pos hp]
      refine ⟨L.set fp links[i], fp + 1, ?_, ?_, by omega, ?_, ?_⟩
      · simp only [keep_link]
        rw [if_pos (by omega)]
      · rw [List.length_set, hlen]
      · rw [List.take_succ, List.set_take, List.set_eq_of_length_le (by simp),
          List.getElem?_set_self (by omega), htake, htk, List.filter_append]
        simp [hp]
      · rw [List.drop_set_of_lt _ _ (by omega), hdr]
    · rw [if_neg hp]
      refine ⟨L, fp, rfl, hlen, by omega, ?_, hdr⟩
      rw [htake, htk, List.filter_append]
      simp [hp]

/-- On the sorted bin ids, the decision of the loop is the one the claim
words, for a link whose first component can be incremented without wrapping. -/
theorem link_passes_eq_is_kept (bins : List Nat) (link : Nat × Nat)
    (hno : link.1 + 1 < 2 ^ 64) :
    link_passes (bins.insertionSort (· ≤ ·)) link = is_kept bins link := by
  unfold link_passes is_kept
  rw [Nat.mod_eq_of_lt hno]
  by_cases h0 : link.1 = 0 ∨ link.2 = 0
  · rw [if_pos h0]
    rcases h0 with h | h <;> simp [h]
  · rw [if_neg h0]
    have h1 : link.1 ≠ 0 := fun h => h0 (Or.inl h)
    have h2 : link.2 ≠ 0 := fun h => h0 (Or.inr h)
    by_cases hlt : link.2 < link.1
    · simp [hlt, h1, h2]
    · rw [if_neg hlt]
      have hiff := lower_bound_lt_iff (bins.insertionSort (· ≤ ·))
        (List.sorted_insertionSort (· ≤ ·) bins) (link.1 + 1) link.2
      simp only [List.mem_insertionSort] at hiff
      by_cases hex : ∃ x ∈ bins, link.1 + 1 ≤ x ∧ x < link.2
      · have hany : (bins.any fun x => decide (link.1 + 1 ≤ x) && decide (x < link.2)) = true := by
          rw [List.any_eq_true]
          obtain ⟨x, hx, ha, hb⟩ := hex
          exact ⟨x, hx, by simp [ha, hb]⟩
        simp [hiff.2 hex, hany, h1, h2]
      · have hany : (bins.any fun x => decide (link.1 + 1 ≤ x) && decide (x < link.2)) = false := by
          rw [Bool.eq_false_iff]
          intro h
          rw [List.any_eq_true] at h
          obtain ⟨x, hx, hc⟩ := h
          simp only [Bool.and_eq_true, decide_eq_true_eq] at hc
          exact hex ⟨x, hx, hc.1, hc.2⟩
        have hnl : ¬ lower_bound (bins.insertionSort (· ≤ ·)) (link.1 + 1)
            < lower_bound (bins.insertionSort (· ≤ ·)) link.2 := fun h => hex (hiff.1 h)
        simp [hnl, hany, hlt]

/-- C24: for every bin map (its keys, in any order), every link list whose
first components can be incremented without wrapping and every value of the
counter, the gap link filter returns the links `(f, s)` with `f ≠ 0`, `s ≠ 0`
and either `f > s` or a populated bin id `x` with `f + 1 ≤ x < s`, exactly
those, in the order of the input, and adds to the counter the number of links
it dropped. -/
theorem drop_gap_links_filters (bins : List Nat) (links : List (Nat × Nat))
    (gap_links_removed : Nat) (hno : ∀ l ∈ links, l.1 + 1 < 2 ^ 64) :
    ∃ kept, drop_gap_links bins links gap_links_removed
        = some (kept, gap_links_removed + (links.length - kept.length))
      ∧ kept = links.filter (is_kept bins)
      ∧ kept.Sublist links
      ∧ ∀ l, l ∈ kept ↔ l ∈ links ∧ is_kept bins l = true := by
  obtain ⟨L, fp, hloop, hlen, hfp, htake, _⟩ :=
    drop_gap_links_loop_spec (bins.insertionSort (· ≤ ·)) links links.length (Nat.le_refl _)
  have hcongr : links.filter (link_passes (bins.insertionSort (· ≤ ·)))
      = links.filter (is_kept bins) :=
    List.filter_congr fun l hl => link_passes_eq_is_kept bins l (hno l hl)
  rw [List.take_length, hcongr] at htake
  have hfpl : fp = (links.filter (is_kept bins)).length := by
    rw [← htake, List.length_take, hlen]
    omega
  refine ⟨links.filter (is_kept bins), ?_, rfl, List.filter_sublist _, fun l => by simp⟩
  unfold drop_gap_links
  rw [hloop]
  simp only [Option.some_bind, htake, hlen]
  rw [hfpl]

/-- Witness for C24: bins 6, 1, 3, 5 and eight links, the counter at 7. -/
theorem drop_gap_links_filters_witness :
    (∀ l ∈ [(1, 3), (3, 5), (1, 2), (5, 6), (6, 1), (1, 6), (2, 2), (6, 0)], l.1 + 1 < 2 ^ 64)
      ∧ ∃ kept, drop_gap_links [6, 1, 3, 5]
            [(1, 3), (3, 5), (1, 2), (5, 6), (6, 1), (1, 6), (2, 2), (6, 0)] 7
          = some (kept, 7 + ([(1, 3), (3, 5), (1, 2), (5, 6), (6, 1), (1, 6), (2, 2), (6, 0)].length
              - kept.length))
        ∧ kept = [(1, 3), (3, 5), (1, 2), (5, 6), (6, 1), (1, 6), (2, 2), (6, 0)].filter
            (is_kept [6, 1, 3, 5])
        ∧ kept.Sublist [(1, 3), (3, 5), (1, 2), (5, 6), (6, 1), (1, 6), (2, 2), (6, 0)]
        ∧ ∀ l, l ∈ kept ↔
            l ∈ [(1, 3), (3, 5), (1, 2), (5, 6), (6, 1), (1, 6), (2, 2), (6, 0)]
              ∧ is_kept [6, 1, 3, 5] l = true :=
  ⟨by decide, drop_gap_links_filters [6, 1, 3, 5]
    [(1, 3), (3, 5), (1, 2), (5, 6), (6, 1), (1, 6), (2, 2), (6, 0)] 7 (by decide)⟩

end odgi
